import Mathlib

/-!
Shallow embedding of the NLPQL definitions-file parser and expression
reducer from `nlp/data_access/expr_tester.py` (`_parse_file`,
`_reduce_expressions`).  Text is modelled as `List Char`; the Python
regular expressions are modelled by equivalent deterministic scanners,
and the unbounded `while` loop of `_reduce_expressions` is modelled with
an explicit fuel parameter (`none` = the loop has not finished within
the given number of passes, which is how a diverging run shows up).
-/

/-- Text is a list of characters. -/
abbrev Str := List Char

/-- The whitespace characters matched by Python's `\s` on ASCII input. -/
def isWS (c : Char) : Bool :=
  c = ' ' || c = '\t' || c = '\n' || c = '\r' || c = '\x0b' || c = '\x0c'

/-- Helper for `splitWS`: `acc` is the (reversed) token being built. -/
def splitWSAux : Str → Str → List Str
  | [], acc => if acc = [] then [] else [acc.reverse]
  | c :: cs, acc =>
    if isWS c then
      if acc = [] then splitWSAux cs [] else acc.reverse :: splitWSAux cs []
    else splitWSAux cs (c :: acc)

/-- Python `str.split()`: split on runs of whitespace, dropping empties. -/
def splitWS (s : Str) : List Str := splitWSAux s []

/-- Python `' '.join(tokens)`. -/
def joinSp : List Str → Str
  | [] => []
  | [t] => t
  | t :: u :: ts => t ++ ' ' :: joinSp (u :: ts)

/-- Helper for `splitDot`. -/
def splitDotAux : Str → Str → List Str
  | [], acc => [acc.reverse]
  | c :: cs, acc =>
    if c = '.' then acc.reverse :: splitDotAux cs [] else splitDotAux cs (c :: acc)

/-- Python `token.split('.')` (keeps empty pieces). -/
def splitDot (s : Str) : List Str := splitDotAux s []

/-- Python `str.strip()`. -/
def strip (s : Str) : Str :=
  ((s.dropWhile (fun c => isWS c)).reverse.dropWhile (fun c => isWS c)).reverse

/-! ## Text normalizer

`_parse_file` normalizes the raw text with three `re.sub` calls:
`re.sub(r'//[^\n]+\n', ' ', text)`, then `re.sub(r'\n', ' ', text)`,
then `re.sub(r'\s+', ' ', text)`.

The comment pattern `//[^\n]+\n` never crosses a newline and always
consumes exactly one trailing newline, so substitution decomposes along
the newline-split of the text: in every line except the last one
(which has no terminating newline to consume), the leftmost occurrence
of `//` that is followed by at least one further character of the line
starts a match that runs through the line's newline, and the match is
replaced by a single space; a line without such an occurrence keeps its
newline.  The final line is never matched. -/

/-- Split on `'\n'` (n newlines producing n+1 pieces), like `splitDot`. -/
def splitNlAux : Str → Str → List Str
  | [], acc => [acc.reverse]
  | c :: cs, acc =>
    if c = '\n' then acc.reverse :: splitNlAux cs [] else splitNlAux cs (c :: acc)

def splitNl (s : Str) : List Str := splitNlAux s []

/-- Leftmost occurrence of `//` followed by at least one more character:
returns the prefix before the marker, or `none`. -/
def findComment : Str → Option Str
  | [] => none
  | [_] => none
  | [_, _] => none
  | c :: c' :: c'' :: cs =>
    if c = '/' ∧ c' = '/' then some []
    else
      match findComment (c' :: c'' :: cs) with
      | some pre => some (c :: pre)
      | none => none

/-- Comment removal on the list of newline-separated lines; the last
line keeps everything (its comment has no newline to consume). -/
def stripCommentLines : List Str → Str
  | [] => []
  | [last] => last
  | l :: l' :: ls =>
    match findComment l with
    | some pre => pre ++ ' ' :: stripCommentLines (l' :: ls)
    | none => l ++ '\n' :: stripCommentLines (l' :: ls)

/-- `re.sub(r'//[^\n]+\n', ' ', text)`. -/
def stripComments (s : Str) : Str := stripCommentLines (splitNl s)

/-- `re.sub(r'\n', ' ', text)`. -/
def nlToSpace (s : Str) : Str := s.map (fun c => if c = '\n' then ' ' else c)

/-- Helper for `collapseWS`; the flag records whether the previous
character was whitespace (in which case further whitespace is dropped). -/
def collapseWSAux : Bool → Str → Str
  | _, [] => []
  | prevWS, c :: cs =>
    if isWS c then
      if prevWS then collapseWSAux true cs else ' ' :: collapseWSAux true cs
    else c :: collapseWSAux false cs

/-- `re.sub(r'\s+', ' ', text)`: every maximal whitespace run becomes one space. -/
def collapseWS (s : Str) : Str := collapseWSAux false s

/-- The three normalization substitutions of `_parse_file`, in order. -/
def normalizeText (s : Str) : Str := collapseWS (nlToSpace (stripComments s))

/-! ## Statement extraction

`_parse_file` uses three regular expressions on the normalized text:

* `context\s(?P<context>[^;]+);` — compiled **without** `re.IGNORECASE`;
  `re.search` finds the leftmost match.
* `\bdefine\s(final\s)?(?P<feature>[^:]+):\swhere\s(?P<expr>[^;]+);`
  with `re.IGNORECASE`; `finditer` yields non-overlapping matches left
  to right.
* `\bdefine\s(final\s)?(?P<feature>[^:]+):\s(?!where)` with
  `re.IGNORECASE`.

The scanners below model these deterministically.  `[^:]+` (resp.
`[^;]+`) is a greedy run of non-colon (non-semicolon) characters, so it
captures exactly the text up to the next `:` (resp. `;`) and fails when
that run is empty or the terminator is missing; `(final\s)?` is greedy
with backtracking; `\b` before `define` holds when the previous
character is absent or not a word character. -/

/-- Case-sensitive literal match: drop `lit` off the front of `s`. -/
def dropLit? : Str → Str → Option Str
  | [], s => some s
  | _, [] => none
  | p :: ps, c :: cs => if c = p then dropLit? ps cs else none

/-- Case-insensitive literal match (keyword pattern given in lowercase),
modelling `re.IGNORECASE` on ASCII keywords. -/
def dropLitCI? : Str → Str → Option Str
  | [], s => some s
  | _, [] => none
  | p :: ps, c :: cs => if c.toLower = p then dropLitCI? ps cs else none

/-- Split at the first `;`: the run of non-`;` characters before it and
the text after it.  `none` when there is no `;`. -/
def upToSemi : Str → Option (Str × Str)
  | [] => none
  | c :: cs =>
    if c = ';' then some ([], cs)
    else
      match upToSemi cs with
      | some (a, b) => some (c :: a, b)
      | none => none

/-- Split at the first `:`, as `upToSemi`. -/
def upToColon : Str → Option (Str × Str)
  | [] => none
  | c :: cs =>
    if c = ':' then some ([], cs)
    else
      match upToColon cs with
      | some (a, b) => some (c :: a, b)
      | none => none

/-- Match `context\s([^;]+);` at the head of `s`, returning the raw
capture.  The keyword is matched case-sensitively (the context regex is
the one compiled without `re.IGNORECASE`). -/
def matchContextAt (s : Str) : Option Str :=
  match dropLit? ('c' :: 'o' :: 'n' :: 't' :: 'e' :: 'x' :: 't' :: []) s with
  | none => none
  | some r =>
    match r with
    | [] => none
    | c :: rest =>
      if isWS c then
        match upToSemi rest with
        | some (a, _) => if a = [] then none else some a
        | none => none
      else none

/-- `re.search` for the context statement: leftmost position at which
`matchContextAt` succeeds; the capture is stripped. -/
def findContext : Str → Option Str
  | [] => none
  | c :: cs =>
    match matchContextAt (c :: cs) with
    | some cap => some (strip cap)
    | none => findContext cs

/-- `\w` (word character) for the `\b` boundary, on ASCII input. -/
def isWordChar (c : Char) : Bool := c.isAlphanum || c = '_'

/-- `\b` before `define`: no previous character, or a non-word one. -/
def boundaryOK : Option Char → Bool
  | none => true
  | some c => !isWordChar c

/-- Tail of an expression statement after `define\s(final\s)?`:
`([^:]+):\swhere\s([^;]+);`.  Returns (feature, body, rest-after-match). -/
def matchExprTail (r : Str) : Option (Str × Str × Str) :=
  match upToColon r with
  | none => none
  | some (feat, rest) =>
    if feat = [] then none
    else
      match rest with
      | [] => none
      | c :: rest2 =>
        if isWS c then
          match dropLitCI? ('w' :: 'h' :: 'e' :: 'r' :: 'e' :: []) rest2 with
          | some (c2 :: rest3) =>
            if isWS c2 then
              match upToSemi rest3 with
              | some (body, rem) => if body = [] then none else some (feat, body, rem)
              | none => none
            else none
          | _ => none
        else none

/-- Tail of a task statement after `define\s(final\s)?`:
`([^:]+):\s(?!where)`.  The negative lookahead consumes nothing, so the
match ends right after the whitespace following the colon.  Returns
(feature, rest-after-match). -/
def matchTaskTail (r : Str) : Option (Str × Str) :=
  match upToColon r with
  | none => none
  | some (feat, rest) =>
    if feat = [] then none
    else
      match rest with
      | [] => none
      | c :: rest2 =>
        if isWS c then
          match dropLitCI? ('w' :: 'h' :: 'e' :: 'r' :: 'e' :: []) rest2 with
          | some _ => none
          | none => some (feat, rest2)
        else none

/-- Match the expression statement regex at the head of `s` (the `\b`
is checked by the caller).  `(final\s)?` is greedy: the variant that
consumes `final` plus whitespace is tried first. -/
def matchExprAt (s : Str) : Option (Str × Str × Str) :=
  match dropLitCI? ('d' :: 'e' :: 'f' :: 'i' :: 'n' :: 'e' :: []) s with
  | some (c :: r2) =>
    if isWS c then
      match
        (match dropLitCI? ('f' :: 'i' :: 'n' :: 'a' :: 'l' :: []) r2 with
         | some (c' :: r3) => if isWS c' then matchExprTail r3 else none
         | _ => none) with
      | some res => some res
      | none => matchExprTail r2
    else none
  | _ => none

/-- Match the task statement regex at the head of `s`. -/
def matchTaskAt (s : Str) : Option (Str × Str) :=
  match dropLitCI? ('d' :: 'e' :: 'f' :: 'i' :: 'n' :: 'e' :: []) s with
  | some (c :: r2) =>
    if isWS c then
      match
        (match dropLitCI? ('f' :: 'i' :: 'n' :: 'a' :: 'l' :: []) r2 with
         | some (c' :: r3) => if isWS c' then matchTaskTail r3 else none
         | _ => none) with
      | some res => some res
      | none => matchTaskTail r2
    else none
  | _ => none

/-- `finditer` for expression statements: scan left to right, emitting
non-overlapping matches (captures stripped) and resuming after each
match.  Each step strictly shortens the text, so fuel `s.length + 1`
(as used by `parse_front`) never runs out; the fuel only makes the
recursion structural. -/
def scanExprsF : Nat → Option Char → Str → List (Str × Str)
  | 0, _, _ => []
  | _ + 1, _, [] => []
  | fuel + 1, prev, c :: cs =>
    if boundaryOK prev then
      match matchExprAt (c :: cs) with
      | some (feat, body, rem) => (strip feat, strip body) :: scanExprsF fuel (some ';') rem
      | none => scanExprsF fuel (some c) cs
    else scanExprsF fuel (some c) cs

/-- `finditer` for task statements.  A task match ends with the
whitespace character after the colon, so scanning resumes with a
whitespace (non-word) previous character. -/
def scanTasksF : Nat → Option Char → Str → List Str
  | 0, _, _ => []
  | _ + 1, _, [] => []
  | fuel + 1, prev, c :: cs =>
    if boundaryOK prev then
      match matchTaskAt (c :: cs) with
      | some (feat, rem) => strip feat :: scanTasksF fuel (some ' ') rem
      | none => scanTasksF fuel (some c) cs
    else scanTasksF fuel (some c) cs

/-- Fatal conditions reported via `sys.exit(-1)` in `_parse_file`. -/
inductive ParseErr
  | missingContext
  | duplicateName (n : Str)
deriving DecidableEq

/-- Build the ordered expression dictionary, reporting the first
feature that repeats (`if feature in expression_dict`). -/
def addExprs : List (Str × Str) → List (Str × Str) → Except ParseErr (List (Str × Str))
  | acc, [] => .ok acc
  | acc, (n, b) :: rest =>
    if n ∈ acc.map Prod.fst then .error (.duplicateName n)
    else addExprs (acc ++ [(n, b)]) rest

/-- Build the ordered task list, reporting the first repeated task. -/
def addTasks : List Str → List Str → Except ParseErr (List Str)
  | acc, [] => .ok acc
  | acc, n :: rest =>
    if n ∈ acc then .error (.duplicateName n)
    else addTasks (acc ++ [n]) rest

/-- The task-vs-expression collision check (`if t in expression_dict`). -/
def crossCheck (tasks : List Str) (exprNames : List Str) : Except ParseErr Unit :=
  match tasks.find? (fun t => decide (t ∈ exprNames)) with
  | some t => .error (.duplicateName t)
  | none => .ok ()

/-- The fields of `FileData` that exist before reduction runs
(`reduced_expressions` and `primitives` start empty). -/
structure ParsedData where
  context : Str
  names : List Str
  tasks : List Str
  expressions : List (Str × Str)
deriving DecidableEq

/-- The (name, body) captures of the expression-statement `finditer`
over the normalized text, in scan order. -/
def exprCaps (text : Str) : List (Str × Str) :=
  scanExprsF ((normalizeText text).length + 1) none (normalizeText text)

/-- The name captures of the task-statement `finditer` over the
normalized text, in scan order. -/
def taskCaps (text : Str) : List Str :=
  scanTasksF ((normalizeText text).length + 1) none (normalizeText text)

/-- Everything `_parse_file` does before calling `_reduce_expressions`:
normalize, extract the context (fatal if absent), extract expression
and task definitions (fatal on a duplicate), check the two name sets
are disjoint, and build `names` as tasks followed by expression names. -/
def parse_front (text : Str) : Except ParseErr ParsedData :=
  match findContext (normalizeText text) with
  | none => .error .missingContext
  | some ctx =>
    match addExprs [] (exprCaps text) with
    | .error e => .error e
    | .ok exprs =>
      match addTasks [] (taskCaps text) with
      | .error e => .error e
      | .ok tasks =>
        match crossCheck tasks (exprs.map Prod.fst) with
        | .error e => .error e
        | .ok _ =>
          .ok { context := ctx, names := tasks ++ exprs.map Prod.fst,
                tasks := tasks, expressions := exprs }

/-! ## Expression reducer (`_reduce_expressions`)

The expression dictionary is an ordered association list whose keys are
fixed by `_parse_file`; a pass walks the keys in order, substituting
into each body with the *current* dictionary (entries updated earlier in
the same pass are visible).  The `while not all_primitive` loop is
modelled with fuel: `none` means the loop is still running after that
many passes. -/

/-- The expression-dictionary state. -/
abbrev Estate := List (Str × Str)

/-- `expr_dict[k]` / `k in expr_dict`: the first entry with key `k`
(keys are unique in parsed files). -/
def lookup? : Estate → Str → Option Str
  | [], _ => none
  | p :: ps, k => if p.1 = k then some p.2 else lookup? ps k

/-- The condition of the substituting `elif` chain for token `t` of the
expression named `e`: `t` is a defined name, not a task name, differs
from `e`, and is a key of the expression dictionary. -/
def shouldSub (names tasks : List Str) (m : Estate) (e t : Str) : Bool :=
  t ∈ names && t ∉ tasks && t ≠ e && (lookup? m t).isSome

/-- `'( ' + expr_dict[token] + ' )'`. -/
def wrapParens (b : Str) : Str := '(' :: ' ' :: (b ++ ' ' :: ')' :: [])

/-- One token of the inner loop: substituted tokens are replaced by the
referenced expression's current body, space-padded in parentheses. -/
def substToken (names tasks : List Str) (m : Estate) (e t : Str) : Str :=
  if shouldSub names tasks m e t then
    match lookup? m t with
    | some b => wrapParens b
    | none => t
  else t

/-- Process one expression's body: split into whitespace tokens,
substitute, and rejoin with single spaces — but only when some token
was substituted (`if is_composite:`); otherwise the body is untouched. -/
def processBody (names tasks : List Str) (m : Estate) (e b : Str) : Str × Bool :=
  let ts := splitWS b
  if ts.any (fun t => shouldSub names tasks m e t) then
    (joinSp (ts.map (substToken names tasks m e)), true)
  else (b, false)

/-- `expr_dict[k] = v` for an existing key (order preserved). -/
def updateMap (m : Estate) (k v : Str) : Estate :=
  m.map (fun p => if p.1 = k then (k, v) else p)

/-- One full pass over the (fixed) key list; the returned flag is true
when any expression was rewritten (`all_primitive = False`). -/
def passKeys (names tasks : List Str) : List Str → Estate → Estate × Bool
  | [], m => (m, false)
  | k :: ks, m =>
    match lookup? m k with
    | none => passKeys names tasks ks m
    | some b =>
      let r := processBody names tasks m k b
      let m' := if r.2 then updateMap m k r.1 else m
      let rest := passKeys names tasks ks m'
      (rest.1, r.2 || rest.2)

/-- One iteration of the `while` loop. -/
def onePass (names tasks : List Str) (m : Estate) : Estate × Bool :=
  passKeys names tasks (m.map Prod.fst) m

/-- The fixpoint loop: run passes until one makes no substitution.
`none` models a run that has not terminated within `fuel` passes. -/
def reduceLoop (names tasks : List Str) : Nat → Estate → Option Estate
  | 0, _ => none
  | fuel + 1, m =>
    let r := onePass names tasks m
    if r.2 then reduceLoop names tasks fuel r.1 else some r.1

/-- The two exceptions the post-reduction scan can raise: the
`assert nlpql_feature in task_names` failure, and the `ValueError` from
unpacking `token.split('.')` into exactly two variables. -/
inductive ReduceErr
  | assertFail
  | valueError
deriving DecidableEq

/-- The scan body for one token: split on `'.'` first (raising
`ValueError` unless the token has exactly one dot), then skip tokens
that are not defined names **as a whole**, then assert that the base
name is a task name and yield it for the `primitives` set. -/
def scanToken (names tasks : List Str) (t : Str) : Except ReduceErr (Option Str) :=
  match
    (if '.' ∈ t then
      match splitDot t with
      | [f, _] => Except.ok f
      | _ => Except.error ReduceErr.valueError
     else Except.ok t : Except ReduceErr Str) with
  | .error e => .error e
  | .ok f =>
    if t ∈ names then
      if f ∈ tasks then .ok (some f) else .error .assertFail
    else .ok none

/-- Scan a token list, accumulating the contributed base names. -/
def scanTokens (names tasks : List Str) : List Str → Except ReduceErr (Finset Str)
  | [] => .ok ∅
  | t :: ts =>
    match scanToken names tasks t with
    | .error e => .error e
    | .ok none => scanTokens names tasks ts
    | .ok (some f) =>
      match scanTokens names tasks ts with
      | .error e => .error e
      | .ok s => .ok (insert f s)

/-- The post-reduction scan over every reduced body, building the
`primitives` set. -/
def collectPrimitives (names tasks : List Str) : Estate → Except ReduceErr (Finset Str)
  | [] => .ok ∅
  | (_, b) :: rest =>
    match scanTokens names tasks (splitWS b) with
    | .error e => .error e
    | .ok s =>
      match collectPrimitives names tasks rest with
      | .error e => .error e
      | .ok s2 => .ok (s ∪ s2)

/-- The completed `FileData` record handed to the caller.  `primitives`
is built by iterating a Python `set`, so it is modelled as a `Finset`. -/
structure FileData where
  context : Str
  names : List Str
  tasks : List Str
  expressions : List (Str × Str)
  reduced_expressions : List (Str × Str)
  primitives : Finset Str
deriving DecidableEq

/-- `_reduce_expressions`: run the fixpoint loop on the expressions
(`none` = the loop has not finished within `fuel` passes), then scan the
reduced bodies for primitives, then fill in the final record. -/
def reduce_expressions (fuel : Nat) (pd : ParsedData) :
    Option (Except ReduceErr FileData) :=
  match reduceLoop pd.names pd.tasks fuel pd.expressions with
  | none => none
  | some st =>
    match collectPrimitives pd.names pd.tasks st with
    | .error e => some (.error e)
    | .ok prims =>
      some (.ok { context := pd.context, names := pd.names, tasks := pd.tasks,
                  expressions := pd.expressions, reduced_expressions := st,
                  primitives := prims })

/-- Observable outcomes of `_parse_file` on a text: the `sys.exit(-1)`
paths, the exceptions escaping `_reduce_expressions`, a diverging
reduction loop (fuel exhausted), or the returned `FileData`. -/
inductive Outcome
  | fuelOut
  | parseErr (e : ParseErr)
  | reduceErr (e : ReduceErr)
  | ok (fd : FileData)
deriving DecidableEq

/-- `_parse_file` end to end, with `fuel` bounding the reduction loop. -/
def parse_file (fuel : Nat) (text : Str) : Outcome :=
  match parse_front text with
  | .error e => .parseErr e
  | .ok pd =>
    match reduce_expressions fuel pd with
    | none => .fuelOut
    | some (.error e) => .reduceErr e
    | some (.ok fd) => .ok fd

/-! ## Tokenizer lemmas -/

theorem splitWSAux_ws_append (w : Char) (hw : isWS w = true) :
    ∀ (a acc b : Str),
      splitWSAux (a ++ w :: b) acc = splitWSAux a acc ++ splitWSAux b [] := by
  intro a
  induction a with
  | nil =>
    intro acc b
    by_cases h : acc = [] <;> simp [splitWSAux, hw, h]
  | cons c cs ih =>
    intro acc b
    by_cases h : isWS c
    · by_cases h2 : acc = [] <;> simp [splitWSAux, h, h2, ih]
    · simp [splitWSAux, h, ih]

theorem splitWS_ws_append (w : Char) (hw : isWS w = true) (a b : Str) :
    splitWS (a ++ w :: b) = splitWS a ++ splitWS b :=
  splitWSAux_ws_append w hw a [] b

theorem splitWS_sp_append (a b : Str) :
    splitWS (a ++ ' ' :: b) = splitWS a ++ splitWS b :=
  splitWS_ws_append ' ' (by decide) a b

theorem splitWS_joinSp : ∀ ts : List Str,
    splitWS (joinSp ts) = (ts.map splitWS).flatten := by
  intro ts
  induction ts with
  | nil => simp [joinSp, splitWS, splitWSAux]
  | cons t ts ih =>
    cases ts with
    | nil => simp [joinSp, splitWS]
    | cons u us => simp [joinSp, splitWS_sp_append, ih]

theorem mem_splitWSAux_wf :
    ∀ (s acc t : Str), (∀ c ∈ acc, isWS c = false) →
      t ∈ splitWSAux s acc → t ≠ [] ∧ ∀ c ∈ t, isWS c = false := by
  intro s
  induction s with
  | nil =>
    intro acc t hacc ht
    simp only [splitWSAux] at ht
    by_cases h : acc = []
    · simp [h] at ht
    · simp [h] at ht
      subst ht
      refine ⟨by simpa using h, ?_⟩
      intro c hc
      exact hacc c (List.mem_reverse.mp hc)
  | cons c cs ih =>
    intro acc t hacc ht
    by_cases h : isWS c
    · simp only [splitWSAux, h, if_true] at ht
      by_cases h2 : acc = [] <;> simp [h2] at ht
      · exact ih [] t (by simp) ht
      · rcases ht with ht | ht
        · subst ht
          exact ⟨by simp [h2], fun x hx => hacc x (List.mem_reverse.mp hx)⟩
        · exact ih [] t (by simp) ht
    · simp only [splitWSAux, h, if_false] at ht
      refine ih (c :: acc) t ?_ ht
      intro x hx
      rcases List.mem_cons.mp hx with rfl | hx
      · simpa using h
      · exact hacc x hx

theorem mem_splitWS_wf {s t : Str} (ht : t ∈ splitWS s) :
    t ≠ [] ∧ ∀ c ∈ t, isWS c = false :=
  mem_splitWSAux_wf s [] t (by simp) ht

theorem splitWSAux_all_nonws :
    ∀ (t acc : Str), (∀ c ∈ t, isWS c = false) → (acc ≠ [] ∨ t ≠ []) →
      splitWSAux t acc = [acc.reverse ++ t] := by
  intro t
  induction t with
  | nil =>
    intro acc _ hne
    rcases hne with h | h
    · simp [splitWSAux, h]
    · simp at h
  | cons c cs ih =>
    intro acc hwf _
    have hc : isWS c = false := hwf c (by simp)
    have := ih (c :: acc) (fun x hx => hwf x (List.mem_cons_of_mem c hx))
      (Or.inl (by simp))
    simp only [splitWSAux, hc, if_false, Bool.false_eq_true] at *
    rw [this]
    simp

theorem splitWS_single {t : Str} (hne : t ≠ []) (hwf : ∀ c ∈ t, isWS c = false) :
    splitWS t = [t] := by
  simpa [splitWS] using splitWSAux_all_nonws t [] hwf (Or.inr hne)

theorem splitWS_wrapParens (b : Str) :
    splitWS (wrapParens b) = ('(' :: []) :: (splitWS b ++ [')' :: []]) := by
  have h1 : wrapParens b = (('(' :: []) : Str) ++ ' ' :: (b ++ ' ' :: (')' :: [])) := by
    simp [wrapParens]
  rw [h1, splitWS_sp_append, splitWS_sp_append]
  rw [splitWS_single (t := '(' :: []) (by simp) (by intro c hc; simp at hc; subst hc; rfl),
      splitWS_single (t := ')' :: []) (by simp) (by intro c hc; simp at hc; subst hc; rfl)]
  simp

/-! ## Dictionary lemmas -/

theorem lookup?_isSome_iff (m : Estate) (k : Str) :
    (lookup? m k).isSome = true ↔ k ∈ m.map Prod.fst := by
  induction m with
  | nil => simp [lookup?]
  | cons p ps ih =>
    by_cases h : p.1 = k
    · simp [lookup?, h]
    · simp [lookup?, h, ih, Ne.symm h]

theorem lookup?_mem {m : Estate} {k b : Str} (h : lookup? m k = some b) :
    (k, b) ∈ m := by
  induction m with
  | nil => simp [lookup?] at h
  | cons p ps ih =>
    by_cases hp : p.1 = k
    · simp only [lookup?, hp, if_true, Option.some.injEq] at h
      exact List.mem_cons.mpr (Or.inl (by cases p; simp_all))
    · simp only [lookup?, hp, if_false] at h
      exact List.mem_cons_of_mem _ (ih h)

theorem mem_lookup? {m : Estate} {k b : Str}
    (hnd : (m.map Prod.fst).Nodup) (h : (k, b) ∈ m) :
    lookup? m k = some b := by
  induction m with
  | nil => simp at h
  | cons p ps ih =>
    rcases List.mem_cons.mp h with rfl | h2
    · simp [lookup?]
    · have hk : p.1 ≠ k := by
        intro he
        have hm : k ∈ ps.map Prod.fst := List.mem_map.mpr ⟨(k, b), h2, rfl⟩
        rw [List.map_cons, List.nodup_cons] at hnd
        exact hnd.1 (he ▸ hm)
      simp only [lookup?, hk, if_false]
      exact ih (by rw [List.map_cons, List.nodup_cons] at hnd; exact hnd.2) h2

theorem updateMap_keys (m : Estate) (k v : Str) :
    (updateMap m k v).map Prod.fst = m.map Prod.fst := by
  induction m with
  | nil => rfl
  | cons p ps ih =>
    by_cases h : p.1 = k <;> simp only [updateMap, List.map_cons] at ih ⊢ <;>
      simp [h, ih]

theorem lookup?_updateMap_other (m : Estate) (k v g : Str) (h : g ≠ k) :
    lookup? (updateMap m k v) g = lookup? m g := by
  induction m with
  | nil => rfl
  | cons p ps ih =>
    by_cases hp : p.1 = k
    · have hkg : k ≠ g := fun he => h he.symm
      simp only [updateMap, List.map_cons, hp, if_true, lookup?, hkg, if_false]
      simpa [updateMap] using ih
    · simp only [updateMap, List.map_cons, hp, if_false, lookup?]
      by_cases hg : p.1 = g
      · simp [hg]
      · simp only [hg, if_false]
        simpa [updateMap] using ih

theorem lookup?_updateMap_self (m : Estate) (k v : Str)
    (h : k ∈ m.map Prod.fst) :
    lookup? (updateMap m k v) k = some v := by
  induction m with
  | nil => simp at h
  | cons p ps ih =>
    by_cases hp : p.1 = k
    · simp [updateMap, lookup?, hp]
    · have h2 : k ∈ ps.map Prod.fst := by
        rcases List.mem_map.mp h with ⟨q, hq, he⟩
        rcases List.mem_cons.mp hq with rfl | hq2
        · exact absurd he hp
        · exact List.mem_map.mpr ⟨q, hq2, he⟩
      simp only [updateMap, List.map_cons, hp, if_false, lookup?]
      simpa [updateMap] using ih h2

theorem mem_updateMap_ne {m : Estate} {k v g b : Str} (hg : g ≠ k)
    (h : (g, b) ∈ updateMap m k v) : (g, b) ∈ m := by
  induction m with
  | nil => simp [updateMap] at h
  | cons p ps ih =>
    simp only [updateMap, List.map_cons, List.mem_cons] at h
    rcases h with h | h
    · by_cases hp : p.1 = k
      · rw [if_pos hp] at h
        exact absurd (congrArg Prod.fst h) (by simpa using hg)
      · rw [if_neg hp] at h
        exact h ▸ List.mem_cons_self _ _
    · exact List.mem_cons_of_mem _ (ih h)

/-! ## Pass lemmas -/

theorem passKeys_keys (names tasks : List Str) :
    ∀ (ks : List Str) (m : Estate),
      (passKeys names tasks ks m).1.map Prod.fst = m.map Prod.fst := by
  intro ks
  induction ks with
  | nil => intro m; rfl
  | cons k ks ih =>
    intro m
    cases hl : lookup? m k with
    | none => simp only [passKeys, hl]; exact ih m
    | some b =>
      cases hc : (processBody names tasks m k b).2 <;>
        simp only [passKeys, hl, hc, if_true, if_false, Bool.false_eq_true] <;>
        simp [ih, updateMap_keys]

theorem passKeys_false_eq (names tasks : List Str) :
    ∀ (ks : List Str) (m m' : Estate),
      passKeys names tasks ks m = (m', false) → m' = m := by
  intro ks
  induction ks with
  | nil =>
    intro m m' h
    simp only [passKeys, Prod.mk.injEq] at h
    exact h.1.symm
  | cons k ks ih =>
    intro m m' h
    simp only [passKeys] at h
    cases hl : lookup? m k with
    | none =>
      rw [hl] at h
      exact ih m m' h
    | some b =>
      rw [hl] at h
      simp only at h
      cases hc : (processBody names tasks m k b).2 with
      | false =>
        rw [hc] at h
        simp only [Bool.false_eq_true, if_false, Bool.false_or, Prod.mk.eta] at h
        exact ih m m' h
      | true =>
        rw [hc] at h
        have h2 := congrArg Prod.snd h
        simp at h2

theorem reduceLoop_fix (names tasks : List Str) :
    ∀ (fuel : Nat) (m st : Estate),
      reduceLoop names tasks fuel m = some st →
      onePass names tasks st = (st, false) := by
  intro fuel
  induction fuel with
  | zero => intro m st h; simp [reduceLoop] at h
  | succ n ih =>
    intro m st h
    simp only [reduceLoop] at h
    cases hc : (onePass names tasks m).2 with
    | true =>
      rw [hc] at h
      simp only [if_true] at h
      exact ih _ st h
    | false =>
      rw [hc] at h
      simp only [Bool.false_eq_true, if_false, Option.some.injEq] at h
      have heq : onePass names tasks m = (st, false) := Prod.ext_iff.mpr ⟨h, hc⟩
      have hmm : st = m := passKeys_false_eq names tasks (m.map Prod.fst) m st heq
      rw [hmm] at heq ⊢
      exact heq

instance exceptDecEq {α β : Type} [DecidableEq α] [DecidableEq β] :
    DecidableEq (Except α β) := fun x y =>
  match x, y with
  | .error a, .error b =>
    if h : a = b then .isTrue (by rw [h])
    else .isFalse (fun he => h (by cases he; rfl))
  | .error _, .ok _ => .isFalse (fun he => by cases he)
  | .ok _, .error _ => .isFalse (fun he => by cases he)
  | .ok a, .ok b =>
    if h : a = b then .isTrue (by rw [h])
    else .isFalse (fun he => h (by cases he; rfl))

/-- C5: if `_reduce_expressions` completes without a fatal error, the
resulting `reduced_expressions` form a fixpoint: running the reducer
again on a file whose expressions are those bodies (same names, same
tasks) performs no substitution in its first pass, returns every body
identical to its input, and recomputes the same primitives set. -/
theorem c5_reduction_idempotent (fuel : Nat) (pd : ParsedData) (fd : FileData)
    (h : reduce_expressions fuel pd = some (.ok fd)) :
    reduce_expressions 1 ⟨pd.context, pd.names, pd.tasks, fd.reduced_expressions⟩ =
      some (.ok ⟨pd.context, pd.names, pd.tasks, fd.reduced_expressions,
                 fd.reduced_expressions, fd.primitives⟩) := by
  unfold reduce_expressions at h ⊢
  cases hl : reduceLoop pd.names pd.tasks fuel pd.expressions with
  | none => simp only [hl] at h; simp at h
  | some st =>
    simp only [hl] at h
    cases hp : collectPrimitives pd.names pd.tasks st with
    | error e => simp only [hp] at h; simp at h
    | ok prims =>
      simp only [hp, Option.some.injEq, Except.ok.injEq] at h
      subst h
      have hfix := reduceLoop_fix pd.names pd.tasks fuel pd.expressions st hl
      have h1 : reduceLoop pd.names pd.tasks 1 st = some st := by
        simp only [reduceLoop]
        rw [hfix]
        rfl
      simp only [h1, hp]

/-- Concrete instantiation of `c5_reduction_idempotent`. -/
def c5pd : ParsedData :=
  ⟨"c".toList, ["T".toList, "A".toList], ["T".toList],
   [("A".toList, "T AND 1".toList)]⟩

def c5fd : FileData :=
  ⟨"c".toList, ["T".toList, "A".toList], ["T".toList],
   [("A".toList, "T AND 1".toList)], [("A".toList, "T AND 1".toList)],
   {"T".toList}⟩

theorem c5_reduction_idempotent_witness :
    reduce_expressions 5 c5pd = some (.ok c5fd) ∧
    reduce_expressions 1 ⟨c5pd.context, c5pd.names, c5pd.tasks, c5fd.reduced_expressions⟩ =
      some (.ok ⟨c5pd.context, c5pd.names, c5pd.tasks, c5fd.reduced_expressions,
                 c5fd.reduced_expressions, c5fd.primitives⟩) :=
  ⟨by decide, c5_reduction_idempotent 5 c5pd c5fd (by decide)⟩

/-- C8: when the normalized text contains no context statement,
`_parse_file` hits the `sys.exit(-1)` branch with the missing-context
message: the outcome is the missing-context fatal error, and no
`FileData` is produced. -/
theorem c8_missing_context_fatal (fuel : Nat) (text : Str)
    (h : findContext (normalizeText text) = none) :
    parse_file fuel text = .parseErr .missingContext ∧
      ∀ fd, parse_file fuel text ≠ .ok fd := by
  have hp : parse_front text = .error .missingContext := by
    unfold parse_front
    simp only [h]
  constructor
  · unfold parse_file
    simp only [hp]
  · intro fd hc
    unfold parse_file at hc
    simp only [hp] at hc
    exact Outcome.noConfusion hc

theorem c8_missing_context_fatal_witness :
    findContext (normalizeText ("define Foo: where 1;".toList)) = none ∧
    (parse_file 3 ("define Foo: where 1;".toList) = .parseErr .missingContext ∧
      ∀ fd, parse_file 3 ("define Foo: where 1;".toList) ≠ .ok fd) :=
  ⟨by decide, c8_missing_context_fatal 3 ("define Foo: where 1;".toList) (by decide)⟩

/-- C2 counterexample: the context regex is the one compiled *without*
`re.IGNORECASE`, so a definitions file whose context statement is
spelled `CONTEXT patient;` is not matched and parsing reports the
missing-context fatal error instead of succeeding with context
`patient` as the claim states. -/
theorem c2_uppercase_context_counterexample :
    parse_file 5 ("CONTEXT patient; define Temperature: measured;".toList) =
        .parseErr .missingContext ∧
      parse_file 5 ("context patient; define Temperature: measured;".toList) ≠
        .parseErr .missingContext := by
  exact ⟨by decide, by decide⟩

/-- C2 amended: keyword matching is case-insensitive for `define`,
`final` and `where` but **not** for `context`: mixed-case spellings of
the three `re.IGNORECASE` keywords parse exactly as the all-lowercase
spelling, while an upper-case `CONTEXT` keyword makes parsing fail with
the missing-context fatal error. -/
theorem c2_keyword_case_amended :
    parse_file 5
        ("context patient; DEFINE Final hasX: WHERE Temp GT 3; Define Temp: measured;".toList) =
      parse_file 5
        ("context patient; define final hasX: where Temp GT 3; define Temp: measured;".toList) ∧
    parse_file 5 ("context patient; define Temp: measured;".toList) ≠
      .parseErr .missingContext ∧
    parse_file 5 ("CONTEXT patient; define Temp: measured;".toList) =
      .parseErr .missingContext := by
  exact ⟨by decide, by decide, by decide⟩

/-- The failing input for C1 (spec example 1). -/
def c1input : Str :=
  ("context patient; define final hasFever: where Temperature.value >= 100.4; " ++
   "define Temperature: measured;").toList

/-- C1 (code-bug evidence): on the spec's own example the parse
succeeds and the reduced body is unchanged, but the primitive scan
checks the **whole** token `Temperature.value` against `defined_names`
(rather than its dot-stripped base name `Temperature`, which it had
just computed for the assert), so the qualified reference contributes
nothing and `primitives` comes out empty instead of `{Temperature}`. -/
theorem c1_qualified_token_skipped :
    parse_file 5 c1input = .ok
      { context := "patient".toList,
        names := ["Temperature".toList, "hasFever".toList],
        tasks := ["Temperature".toList],
        expressions := [("hasFever".toList, "Temperature.value >= 100.4".toList)],
        reduced_expressions :=
          [("hasFever".toList, "Temperature.value >= 100.4".toList)],
        primitives := (∅ : Finset Str) } ∧
    (∅ : Finset Str) ≠ {"Temperature".toList} := by
  exact ⟨by decide, by decide⟩

/-- The input for C6 (spec example 2). -/
def c6input : Str :=
  ("context patient; define A: where B AND C; define B: where X; " ++
   "define C: where Y; define X: x1; define Y: y1;").toList

/-- C6: a token that is a different expression's name is replaced by
that expression's current body wrapped in space-padded parentheses, the
changed body being the space-joined substituted token list; on the
spec's example the reduced body of `A` is exactly `( X ) AND ( Y )` and
`primitives = {X, Y}`. -/
theorem c6_substitution_parenthesized :
    (∀ (names tasks : List Str) (m : Estate) (e t bt : Str),
        t ∈ names → t ∉ tasks → t ≠ e → lookup? m t = some bt →
        substToken names tasks m e t = wrapParens bt ∧
        ∀ b, t ∈ splitWS b →
          processBody names tasks m e b =
            (joinSp ((splitWS b).map (substToken names tasks m e)), true)) ∧
    parse_file 5 c6input = .ok
      { context := "patient".toList,
        names := ["X".toList, "Y".toList, "A".toList, "B".toList, "C".toList],
        tasks := ["X".toList, "Y".toList],
        expressions := [("A".toList, "B AND C".toList), ("B".toList, "X".toList),
                        ("C".toList, "Y".toList)],
        reduced_expressions :=
          [("A".toList, "( X ) AND ( Y )".toList), ("B".toList, "X".toList),
           ("C".toList, "Y".toList)],
        primitives := {"X".toList, "Y".toList} } := by
  constructor
  · intro names tasks m e t bt h1 h2 h3 h4
    have hsub : shouldSub names tasks m e t = true := by
      simp [shouldSub, h1, h2, h3, h4]
    constructor
    · simp [substToken, hsub, h4]
    · intro b hb
      have hany : (splitWS b).any (fun x => shouldSub names tasks m e x) = true :=
        List.any_eq_true.mpr ⟨t, hb, hsub⟩
      simp [processBody, hany]
  · decide

/-- Concrete instantiation of the universally quantified part of
`c6_substitution_parenthesized`. -/
theorem c6_substitution_parenthesized_witness :
    ("B".toList ∈ ["X".toList, "Y".toList, "A".toList, "B".toList, "C".toList] ∧
      "B".toList ∉ ["X".toList, "Y".toList] ∧
      "B".toList ≠ "A".toList ∧
      lookup? [("A".toList, "B AND C".toList), ("B".toList, "X".toList),
               ("C".toList, "Y".toList)] "B".toList = some "X".toList) ∧
    (substToken ["X".toList, "Y".toList, "A".toList, "B".toList, "C".toList]
        ["X".toList, "Y".toList]
        [("A".toList, "B AND C".toList), ("B".toList, "X".toList),
         ("C".toList, "Y".toList)] "A".toList "B".toList =
      wrapParens "X".toList ∧
     ∀ b, "B".toList ∈ splitWS b →
        processBody ["X".toList, "Y".toList, "A".toList, "B".toList, "C".toList]
          ["X".toList, "Y".toList]
          [("A".toList, "B AND C".toList), ("B".toList, "X".toList),
           ("C".toList, "Y".toList)] "A".toList b =
          (joinSp ((splitWS b).map
            (substToken ["X".toList, "Y".toList, "A".toList, "B".toList, "C".toList]
              ["X".toList, "Y".toList]
              [("A".toList, "B AND C".toList), ("B".toList, "X".toList),
               ("C".toList, "Y".toList)] "A".toList)), true)) :=
  ⟨⟨by decide, by decide, by decide, by decide⟩,
    c6_substitution_parenthesized.1
      ["X".toList, "Y".toList, "A".toList, "B".toList, "C".toList]
      ["X".toList, "Y".toList]
      [("A".toList, "B AND C".toList), ("B".toList, "X".toList),
       ("C".toList, "Y".toList)]
      "A".toList "B".toList "X".toList
      (by decide) (by decide) (by decide) (by decide)⟩

/-! ## Normalizer lemmas -/

/-- No two adjacent whitespace characters. -/
def noTwoWS : Str → Bool
  | [] => true
  | [_] => true
  | c :: c' :: cs => !(isWS c && isWS c') && noTwoWS (c' :: cs)

theorem mem_collapseWSAux : ∀ (s : Str) (b : Bool) (c : Char),
    c ∈ collapseWSAux b s → c = ' ' ∨ c ∈ s := by
  intro s
  induction s with
  | nil => intro b c h; simp [collapseWSAux] at h
  | cons x xs ih =>
    intro b c h
    by_cases hx : isWS x
    · cases b with
      | true =>
        simp only [collapseWSAux, hx, if_true] at h
        rcases ih true c h with h2 | h2
        · exact Or.inl h2
        · exact Or.inr (List.mem_cons_of_mem x h2)
      | false =>
        simp only [collapseWSAux, hx, if_true] at h
        rcases List.mem_cons.mp h with rfl | h2
        · exact Or.inl rfl
        · rcases ih true c h2 with h3 | h3
          · exact Or.inl h3
          · exact Or.inr (List.mem_cons_of_mem x h3)
    · simp only [collapseWSAux, hx, if_false] at h
      rcases List.mem_cons.mp h with rfl | h2
      · exact Or.inr (List.mem_cons_self _ _)
      · rcases ih false c h2 with h3 | h3
        · exact Or.inl h3
        · exact Or.inr (List.mem_cons_of_mem x h3)

theorem collapseWSAux_true_head : ∀ (s : Str) (c : Char) (cs' : Str),
    collapseWSAux true s = c :: cs' → isWS c = false := by
  intro s
  induction s with
  | nil => intro c cs' h; simp [collapseWSAux] at h
  | cons x xs ih =>
    intro c cs' h
    by_cases hx : isWS x
    · simp only [collapseWSAux, hx, if_true] at h
      exact ih c cs' h
    · simp only [collapseWSAux, hx, if_false] at h
      cases h
      simpa using hx

theorem noTwoWS_collapseWSAux : ∀ (s : Str) (b : Bool),
    noTwoWS (collapseWSAux b s) = true := by
  intro s
  induction s with
  | nil => intro b; simp [collapseWSAux, noTwoWS]
  | cons x xs ih =>
    intro b
    by_cases hx : isWS x
    · cases b with
      | true => simpa only [collapseWSAux, hx, if_true] using ih true
      | false =>
        simp only [collapseWSAux, hx, if_true]
        cases he : collapseWSAux true xs with
        | nil => simp [noTwoWS]
        | cons y ys =>
          have hy : isWS y = false := collapseWSAux_true_head xs y ys he
          have h2 := ih true
          rw [he] at h2
          simp [noTwoWS, hy, h2]
    · simp only [collapseWSAux, hx, if_false]
      cases he : collapseWSAux false xs with
      | nil => simp [noTwoWS]
      | cons y ys =>
        have h2 := ih false
        rw [he] at h2
        simp [noTwoWS, hx, h2]

theorem no_newline_nlToSpace (s : Str) : '\n' ∉ nlToSpace s := by
  intro h
  rcases List.mem_map.mp h with ⟨c, _, hc⟩
  by_cases he : c = '\n' <;> simp [he] at hc

/-- C3 counterexample: a comment on the final line, with no terminating
newline, survives normalization verbatim — the span beginning at `//`
is **not** absent from the output as the claim states. -/
theorem c3_unterminated_comment_counterexample :
    normalizeText ("a //b".toList) = "a //b".toList ∧
      '/' ∈ normalizeText ("a //b".toList) ∧
      'b' ∈ normalizeText ("a //b".toList) := by
  exact ⟨by decide, by decide, by decide⟩

/-- C3 amended: normalization is a total function; every newline is
replaced and every maximal whitespace run collapses, so the output is a
single line with no two adjacent whitespace characters.  A `//` comment
span is removed only when the marker is followed by at least one
non-newline character and terminated by a newline; a comment on the
final line (no newline) or a bare `//` marker is preserved. -/
theorem c3_normalizer_amended :
    (∀ s : Str, '\n' ∉ normalizeText s ∧ noTwoWS (normalizeText s) = true) ∧
    normalizeText ("a //b\nc".toList) = "a c".toList ∧
    normalizeText ("x //y\nz //w\nu".toList) = "x z u".toList ∧
    normalizeText ("a //b".toList) = "a //b".toList ∧
    normalizeText ("a //\nc".toList) = "a // c".toList := by
  refine ⟨fun s => ⟨?_, noTwoWS_collapseWSAux _ false⟩, by decide, by decide, by decide, by decide⟩
  intro h
  rcases mem_collapseWSAux _ false '\n' h with h2 | h2
  · exact absurd h2 (by decide)
  · exact no_newline_nlToSpace _ h2

/-! ## Duplicate-detection lemmas -/

theorem addExprs_ok : ∀ (l acc : List (Str × Str)),
    ((acc ++ l).map Prod.fst).Nodup → addExprs acc l = .ok (acc ++ l) := by
  intro l
  induction l with
  | nil => intro acc _; simp [addExprs]
  | cons p rest ih =>
    intro acc h
    obtain ⟨n, b⟩ := p
    have hn : n ∉ acc.map Prod.fst := by
      rw [List.map_append] at h
      have := (List.nodup_append.mp h).2.2
      intro hmem
      exact this hmem (by simp)
    simp only [addExprs, hn, if_neg, if_false]
    have he : (acc ++ [(n, b)]) ++ rest = acc ++ (n, b) :: rest := by
      simp
    rw [ih (acc ++ [(n, b)]) (by rw [he]; exact h), he]

theorem addExprs_err : ∀ (l acc : List (Str × Str)),
    (acc.map Prod.fst).Nodup → ¬ ((acc ++ l).map Prod.fst).Nodup →
    ∃ n, addExprs acc l = .error (.duplicateName n) ∧
      2 ≤ ((acc ++ l).map Prod.fst).count n := by
  intro l
  induction l with
  | nil => intro acc hacc h; simp at h; exact absurd hacc h
  | cons p rest ih =>
    intro acc hacc h
    obtain ⟨n, b⟩ := p
    by_cases hn : n ∈ acc.map Prod.fst
    · refine ⟨n, by simp [addExprs, hn], ?_⟩
      have h1 : 1 ≤ (acc.map Prod.fst).count n := List.one_le_count_iff.mpr hn
      have h2 : 1 ≤ (((n, b) :: rest).map Prod.fst).count n := by
        simp [List.count_cons]
      rw [List.map_append, List.count_append]
      omega
    · have he : (acc ++ [(n, b)]) ++ rest = acc ++ (n, b) :: rest := by simp
      have hacc2 : ((acc ++ [(n, b)]).map Prod.fst).Nodup := by
        rw [List.map_append, List.nodup_append]
        refine ⟨hacc, by simp, ?_⟩
        intro a ha hb
        simp at hb
        exact hn (hb ▸ ha)
      obtain ⟨x, hx1, hx2⟩ := ih (acc ++ [(n, b)]) hacc2 (by rw [he]; exact h)
      refine ⟨x, ?_, ?_⟩
      · simp only [addExprs, hn, if_neg, if_false]
        exact hx1
      · rw [← he]; exact hx2

theorem addTasks_ok : ∀ (l acc : List Str),
    (acc ++ l).Nodup → addTasks acc l = .ok (acc ++ l) := by
  intro l
  induction l with
  | nil => intro acc _; simp [addTasks]
  | cons n rest ih =>
    intro acc h
    have hn : n ∉ acc := by
      have := (List.nodup_append.mp h).2.2
      intro hmem
      exact this hmem (by simp)
    have he : (acc ++ [n]) ++ rest = acc ++ n :: rest := by simp
    simp only [addTasks]
    rw [if_neg hn, ih (acc ++ [n]) (by rw [he]; exact h), he]

theorem addTasks_err : ∀ (l acc : List Str),
    acc.Nodup → ¬ (acc ++ l).Nodup →
    ∃ n, addTasks acc l = .error (.duplicateName n) ∧
      2 ≤ (acc ++ l).count n := by
  intro l
  induction l with
  | nil => intro acc hacc h; simp at h; exact absurd hacc h
  | cons n rest ih =>
    intro acc hacc h
    by_cases hn : n ∈ acc
    · refine ⟨n, by simp [addTasks, hn], ?_⟩
      have h1 : 1 ≤ acc.count n := List.one_le_count_iff.mpr hn
      have h2 : 1 ≤ (n :: rest).count n := by simp [List.count_cons]
      rw [List.count_append]
      omega
    · have he : (acc ++ [n]) ++ rest = acc ++ n :: rest := by simp
      have hacc2 : (acc ++ [n]).Nodup := by
        rw [List.nodup_append]
        refine ⟨hacc, by simp, ?_⟩
        intro a ha hb
        simp at hb
        exact hn (hb ▸ ha)
      obtain ⟨x, hx1, hx2⟩ := ih (acc ++ [n]) hacc2 (by rw [he]; exact h)
      refine ⟨x, ?_, ?_⟩
      · simp only [addTasks]
        rw [if_neg hn]
        exact hx1
      · rw [← he]; exact hx2

theorem crossCheck_ok (tasks ens : List Str) (h : ∀ t ∈ tasks, t ∉ ens) :
    crossCheck tasks ens = .ok () := by
  unfold crossCheck
  have : tasks.find? (fun t => decide (t ∈ ens)) = none := by
    rw [List.find?_eq_none]
    intro t ht
    simpa using h t ht
  rw [this]

theorem crossCheck_err (tasks ens : List Str) (t : Str)
    (ht : t ∈ tasks) (he : t ∈ ens) :
    ∃ x, crossCheck tasks ens = .error (.duplicateName x) ∧
      x ∈ tasks ∧ x ∈ ens := by
  unfold crossCheck
  cases hf : tasks.find? (fun t => decide (t ∈ ens)) with
  | none =>
    rw [List.find?_eq_none] at hf
    exact absurd (by simpa using he) (by simpa using hf t ht)
  | some x =>
    exact ⟨x, rfl, List.mem_of_find?_eq_some hf, by simpa using List.find?_some hf⟩

/-- C7 counterexample: with the same duplicated declarations but no
context statement, `_parse_file` exits through the earlier
missing-context branch, so the offending name `Foo` is **not** the
fatal error that gets reported, contrary to the claim. -/
theorem c7_duplicate_counterexample :
    parse_file 5 ("define Foo: where 1; define Foo: where 2;".toList) =
        .parseErr .missingContext ∧
      parse_file 5 ("define Foo: where 1; define Foo: where 2;".toList) ≠
        .parseErr (.duplicateName "Foo".toList) := by
  exact ⟨by decide, by decide⟩

/-- C7 amended: provided the normalized text contains a context
statement (that check runs first), any name captured twice — by two
expression statements, two task statements, or once as a task and once
as an expression — makes parsing fatal with a duplicate-definition
error naming an offending (twice-declared) name, and no `FileData`
is produced. -/
theorem c7_duplicate_name_fatal (fuel : Nat) (text : Str)
    (hctx : (findContext (normalizeText text)).isSome = true)
    (hdup : ¬ (taskCaps text ++ (exprCaps text).map Prod.fst).Nodup) :
    ∃ n, parse_file fuel text = .parseErr (.duplicateName n) ∧
      2 ≤ (taskCaps text ++ (exprCaps text).map Prod.fst).count n ∧
      ∀ fd, parse_file fuel text ≠ .ok fd := by
  obtain ⟨ctx, hc⟩ := Option.isSome_iff_exists.mp hctx
  have hmain : ∃ n, parse_front text = .error (.duplicateName n) ∧
      2 ≤ (taskCaps text ++ (exprCaps text).map Prod.fst).count n := by
    by_cases hE : ((exprCaps text).map Prod.fst).Nodup
    · by_cases hT : (taskCaps text).Nodup
      · have hdisj : ¬ (taskCaps text).Disjoint ((exprCaps text).map Prod.fst) := by
          intro hd
          exact hdup (List.nodup_append.mpr ⟨hT, hE, hd⟩)
        rw [List.Disjoint] at hdisj
        push_neg at hdisj
        obtain ⟨t, ht, he⟩ := hdisj
        obtain ⟨x, hx, hxt, hxe⟩ :=
          crossCheck_err (taskCaps text) ((exprCaps text).map Prod.fst) t ht
            (by simpa using he)
        refine ⟨x, ?_, ?_⟩
        · unfold parse_front
          rw [hc, addExprs_ok (exprCaps text) [] (by simpa using hE),
              addTasks_ok (taskCaps text) [] (by simpa using hT)]
          simp only [List.nil_append]
          rw [hx]
        · have h1 : 1 ≤ (taskCaps text).count x := List.one_le_count_iff.mpr hxt
          have h2 : 1 ≤ ((exprCaps text).map Prod.fst).count x :=
            List.one_le_count_iff.mpr hxe
          rw [List.count_append]
          omega
      · obtain ⟨n, hn1, hn2⟩ := addTasks_err (taskCaps text) [] (by simp)
          (by simpa using hT)
        have hn2' : 2 ≤ (taskCaps text).count n := by simpa using hn2
        refine ⟨n, ?_, ?_⟩
        · unfold parse_front
          rw [hc, addExprs_ok (exprCaps text) [] (by simpa using hE)]
          rw [hn1]
        · rw [List.count_append]
          omega
    · obtain ⟨n, hn1, hn2⟩ := addExprs_err (exprCaps text) [] (by simp)
        (by simpa using hE)
      have hn2' : 2 ≤ ((exprCaps text).map Prod.fst).count n := by simpa using hn2
      refine ⟨n, ?_, ?_⟩
      · unfold parse_front
        rw [hc]
        rw [hn1]
      · rw [List.count_append]
        omega
  obtain ⟨n, hfr, hcnt⟩ := hmain
  refine ⟨n, ?_, hcnt, ?_⟩
  · unfold parse_file
    rw [hfr]
  · intro fd hbad
    unfold parse_file at hbad
    rw [hfr] at hbad
    exact Outcome.noConfusion hbad

/-- Concrete instantiation of `c7_duplicate_name_fatal` on the spec's
duplicate-definition example, with a context statement present. -/
theorem c7_duplicate_name_fatal_witness :
    ((findContext (normalizeText
        ("context x; define Foo: where 1; define Foo: where 2;".toList))).isSome = true ∧
      ¬ (taskCaps ("context x; define Foo: where 1; define Foo: where 2;".toList) ++
          (exprCaps ("context x; define Foo: where 1; define Foo: where 2;".toList)).map
            Prod.fst).Nodup) ∧
    (∃ n, parse_file 5 ("context x; define Foo: where 1; define Foo: where 2;".toList) =
        .parseErr (.duplicateName n) ∧
      2 ≤ (taskCaps ("context x; define Foo: where 1; define Foo: where 2;".toList) ++
          (exprCaps ("context x; define Foo: where 1; define Foo: where 2;".toList)).map
            Prod.fst).count n ∧
      ∀ fd, parse_file 5
        ("context x; define Foo: where 1; define Foo: where 2;".toList) ≠ .ok fd) :=
  ⟨⟨by decide, by decide⟩,
    c7_duplicate_name_fatal 5
      ("context x; define Foo: where 1; define Foo: where 2;".toList)
      (by decide) (by decide)⟩

/-! ## Divergence of the fixpoint loop

When expression `p` references expression `q` and the parenthesized
substitute `( ` ++ body of `q` ++ ` )` again contains the token `q` —
either because `q`'s body contains `q` itself, or because `q` is
literally the token `(` or `)` that the wrapping introduces — while
`q`'s own body never changes (it contains no key other than `q`), every
pass substitutes anew inside `p`'s body, so no pass is ever free of
substitutions. -/

theorem onePass_self_ref (names tasks : List Str) (p q b₀ : Str)
    (hpq : p ≠ q) (hqn : q ∈ names) (hqt : q ∉ tasks)
    (hqw : q ∈ splitWS (wrapParens b₀)) (hpb : p ∉ splitWS b₀) (a : Str)
    (hqa : q ∈ splitWS a) :
    onePass names tasks [(p, a), (q, b₀)] =
      ([(p, joinSp ((splitWS a).map
          (substToken names tasks [(p, a), (q, b₀)] p))), (q, b₀)], true) ∧
      q ∈ splitWS (joinSp ((splitWS a).map
          (substToken names tasks [(p, a), (q, b₀)] p))) := by
  have hqp : q ≠ p := fun h => hpq h.symm
  set m : Estate := [(p, a), (q, b₀)] with hm
  have hlookp : lookup? m p = some a := by simp [hm, lookup?]
  have hlookq : lookup? m q = some b₀ := by simp [hm, lookup?, hpq]
  have hsub : shouldSub names tasks m p q = true := by
    simp [shouldSub, hqn, hqt, hqp, hlookq]
  set a' : Str := joinSp ((splitWS a).map (substToken names tasks m p)) with ha'
  have hany : (splitWS a).any (fun t => shouldSub names tasks m p t) = true :=
    List.any_eq_true.mpr ⟨q, hqa, hsub⟩
  have hproc : processBody names tasks m p a = (a', true) := by
    simp [processBody, hany, ha']
  have hsubq : substToken names tasks m p q = wrapParens b₀ := by
    simp [substToken, hsub, hlookq]
  have hqa' : q ∈ splitWS a' := by
    rw [ha', splitWS_joinSp]
    apply List.mem_flatten.mpr
    refine ⟨splitWS (substToken names tasks m p q), ?_, ?_⟩
    · rw [List.map_map]
      exact List.mem_map.mpr ⟨q, hqa, rfl⟩
    · rw [hsubq]
      exact hqw
  have hupd : updateMap m p a' = [(p, a'), (q, b₀)] := by
    simp [hm, updateMap, hqp]
  set m1 : Estate := [(p, a'), (q, b₀)] with hm1
  have hlookq1 : lookup? m1 q = some b₀ := by simp [hm1, lookup?, hpq]
  have hnosub : (splitWS b₀).any (fun t => shouldSub names tasks m1 q t) = false := by
    rw [List.any_eq_false]
    intro t ht
    by_cases hq : t = q
    · simp [shouldSub, hq]
    · have htp : t ≠ p := fun h => hpb (h ▸ ht)
      have hpt : p ≠ t := fun h => htp h.symm
      have hqt2 : q ≠ t := fun h => hq h.symm
      have : lookup? m1 t = none := by
        simp [hm1, lookup?, hpt, hqt2]
      simp [shouldSub, this]
  have hproc1 : processBody names tasks m1 q b₀ = (b₀, false) := by
    simp [processBody, hnosub]
  constructor
  · show passKeys names tasks (m.map Prod.fst) m = (m1, true)
    have hkeys : m.map Prod.fst = [p, q] := by simp [hm]
    rw [hkeys]
    simp only [passKeys, hlookp, hproc, if_true, hupd, ← hm1, hlookq1, hproc1,
      Bool.false_eq_true, if_false, Bool.or_false, Bool.true_or]
  · exact hqa'

theorem loop_diverges (names tasks : List Str) (p q b₀ : Str)
    (hpq : p ≠ q) (hqn : q ∈ names) (hqt : q ∉ tasks)
    (hqw : q ∈ splitWS (wrapParens b₀)) (hpb : p ∉ splitWS b₀) :
    ∀ (fuel : Nat) (a : Str), q ∈ splitWS a →
      reduceLoop names tasks fuel [(p, a), (q, b₀)] = none := by
  intro fuel
  induction fuel with
  | zero => intro a _; rfl
  | succ n ih =>
    intro a hqa
    obtain ⟨h1, h2⟩ := onePass_self_ref names tasks p q b₀ hpq hqn hqt hqw hpb a hqa
    simp only [reduceLoop, h1, if_true]
    exact ih _ h2

/-- The claim's expression-to-expression reference graph on the current
dictionary: an edge from `e` to `f` when `f` is a *different*
expression's name occurring as a whitespace token of `e`'s body
(self-edges excluded, as in the claim). -/
def refersToB (m : Estate) (e f : Str) : Bool :=
  f ≠ e && f ∈ m.map Prod.fst &&
    (match lookup? m e with
     | some b => f ∈ splitWS b
     | none => false)

/-- The input for the C4 counterexample: `A` references `B`, and `B`
references itself (plus the task `T`). -/
def c4input : Str :=
  "context c1; define A: where B; define B: where B AND T; define T: tt;".toList

def c4pd : ParsedData :=
  ⟨"c1".toList, ["T".toList, "A".toList, "B".toList], ["T".toList],
   [("A".toList, "B".toList), ("B".toList, "B AND T".toList)]⟩

/-- Rank function witnessing that the self-edge-free reference graph of
`c4pd` is acyclic (its only edge is `A → B`). -/
def c4rank (n : Str) : Nat := if n = "A".toList then 1 else 0

/-- C4 counterexample: the parsed file `c4pd` (produced by
`_parse_file`'s front end on `c4input`) has an acyclic
expression-to-expression reference graph in the claim's sense — the
only edge is `A → B`, since the self-reference `B → B` is excluded —
yet the reduction fixpoint loop never halts: every pass substitutes
`B`'s body (which contains the token `B`) into `A`'s body again. -/
theorem c4_acyclic_yet_diverges :
    parse_front c4input = .ok c4pd ∧
    ((c4pd.expressions.map Prod.fst).all (fun e =>
      (c4pd.expressions.map Prod.fst).all (fun f =>
        !refersToB c4pd.expressions e f ||
          decide (c4rank f < c4rank e))) = true) ∧
    ¬ ∃ fuel st, reduceLoop c4pd.names c4pd.tasks fuel c4pd.expressions = some st := by
  refine ⟨by decide, by decide, ?_⟩
  rintro ⟨fuel, st, h⟩
  have he : c4pd.expressions =
      [("A".toList, "B".toList), ("B".toList, "B AND T".toList)] := rfl
  rw [he, loop_diverges c4pd.names c4pd.tasks "A".toList "B".toList "B AND T".toList
    (by decide) (by decide) (by decide) (by decide) (by decide) fuel "B".toList
    (by decide)] at h
  exact Option.noConfusion h

/-- The input for the C9 counterexample: `Q`'s body contains `Q` itself
and `P` references `Q`. -/
def c9input : Str :=
  "context c2; define P: where Q; define Q: where Q OR U; define U: uu;".toList

def c9pd : ParsedData :=
  ⟨"c2".toList, ["U".toList, "P".toList, "Q".toList], ["U".toList],
   [("P".toList, "Q".toList), ("Q".toList, "Q OR U".toList)]⟩

def c9rank (n : Str) : Nat := if n = "P".toList then 1 else 0

/-- C9 counterexample: in the parsed file `c9pd` the expression `Q`
contains its own name as a token and the *other* expression-to-
expression references form an acyclic graph (only `P → Q`), but the
fixpoint loop does not terminate, so the post-reduction primitive scan
— and with it the claimed assertion failure — is never reached: for
every pass budget the reduction is still running and
`_reduce_expressions` returns nothing at all. -/
theorem c9_self_reference_diverges :
    parse_front c9input = .ok c9pd ∧
    ("Q".toList ∈ splitWS (joinSp [("Q OR U".toList)]) ∧
      lookup? c9pd.expressions "Q".toList = some "Q OR U".toList) ∧
    ((c9pd.expressions.map Prod.fst).all (fun e =>
      (c9pd.expressions.map Prod.fst).all (fun f =>
        !refersToB c9pd.expressions e f ||
          decide (c9rank f < c9rank e))) = true) ∧
    (¬ ∃ fuel st, reduceLoop c9pd.names c9pd.tasks fuel c9pd.expressions = some st) ∧
    (¬ ∃ fuel r, reduce_expressions fuel c9pd = some r) := by
  have hdiv : ∀ fuel,
      reduceLoop c9pd.names c9pd.tasks fuel c9pd.expressions = none := by
    intro fuel
    have he : c9pd.expressions =
        [("P".toList, "Q".toList), ("Q".toList, "Q OR U".toList)] := rfl
    rw [he]
    exact loop_diverges c9pd.names c9pd.tasks "P".toList "Q".toList "Q OR U".toList
      (by decide) (by decide) (by decide) (by decide) (by decide) fuel "Q".toList
      (by decide)
  refine ⟨by decide, ⟨by decide, by decide⟩, by decide, ?_, ?_⟩
  · rintro ⟨fuel, st, h⟩
    rw [hdiv fuel] at h
    exact Option.noConfusion h
  · rintro ⟨fuel, r, h⟩
    unfold reduce_expressions at h
    rw [hdiv fuel] at h
    exact Option.noConfusion h

/-! ## Termination of the fixpoint loop under ranked acyclicity

A rank function `r` with `r f < r e` for every expression-name token
`f` of `e`'s body (self-references included, since `r e < r e` is
impossible) witnesses acyclicity of the reference graph *with*
self-edges.  Each full pass replaces every expression-name token by a
body whose expression-name tokens have strictly smaller rank, so the
maximal rank bound drops by one per pass. -/

/-- Every token of `b` that is an expression key has rank below `c`. -/
def BodyBound (K : List Str) (r : Str → Nat) (c : Nat) (b : Str) : Prop :=
  ∀ f ∈ splitWS b, f ∈ K → r f < c

/-- `BodyBound` for every body of the dictionary. -/
def StateBound (K : List Str) (r : Str → Nat) (c : Nat) (m : Estate) : Prop :=
  ∀ p ∈ m, BodyBound K r c p.2

/-- The rank invariant: every expression-key token of a body ranks
strictly below the body's own expression. -/
def InvR (K : List Str) (r : Str → Nat) (m : Estate) : Prop :=
  ∀ p ∈ m, ∀ f ∈ splitWS p.2, f ∈ K → r f < r p.1

theorem BodyBound_mono {K : List Str} {r : Str → Nat} {c c' : Nat} {b : Str}
    (h : c ≤ c') (hb : BodyBound K r c b) : BodyBound K r c' b :=
  fun f hf hK => lt_of_lt_of_le (hb f hf hK) h

/-- Core analysis of a substituted body: every expression-key token of
the rewritten body comes from some expression-key token of the old body
of strictly larger rank. -/
theorem processed_body_bounds (names tasks K : List Str) (r : Str → Nat)
    (hKsub : ∀ t ∈ K, t ∈ names ∧ t ∉ tasks)
    (hpar1 : ('(' :: []) ∉ K) (hpar2 : (')' :: []) ∉ K)
    (m : Estate) (hK : m.map Prod.fst = K) (hinv : InvR K r m)
    (e b : Str) (hmem : (e, b) ∈ m) :
    ∀ f ∈ splitWS (joinSp ((splitWS b).map (substToken names tasks m e))),
      f ∈ K → ∃ t ∈ splitWS b, t ∈ K ∧ r f < r t := by
  intro f hf hfK
  rw [splitWS_joinSp, List.map_map] at hf
  obtain ⟨l, hl, hfl⟩ := List.mem_flatten.mp hf
  obtain ⟨t, ht, hteq⟩ := List.mem_map.mp hl
  simp only [Function.comp] at hteq
  subst hteq
  by_cases hsub : shouldSub names tasks m e t = true
  · have hlook : (lookup? m t).isSome = true := by
      have := hsub
      unfold shouldSub at this
      simp only [Bool.and_eq_true] at this
      exact this.2
    obtain ⟨bt, hbt⟩ := Option.isSome_iff_exists.mp hlook
    have htK : t ∈ K := hK ▸ (lookup?_isSome_iff m t).mp (by rw [hbt]; rfl)
    have hsubeq : substToken names tasks m e t = wrapParens bt := by
      simp [substToken, hsub, hbt]
    rw [hsubeq, splitWS_wrapParens] at hfl
    rcases List.mem_cons.mp hfl with rfl | hfl2
    · exact absurd hfK hpar1
    · rcases List.mem_append.mp hfl2 with hfb | hfp
      · have hmt : (t, bt) ∈ m := lookup?_mem hbt
        exact ⟨t, ht, htK, hinv (t, bt) hmt f hfb hfK⟩
      · simp only [List.mem_singleton] at hfp
        exact absurd (hfp ▸ hfK) hpar2
  · have hsubeq : substToken names tasks m e t = t := by
      simp [substToken, hsub]
    obtain ⟨hne, hwf⟩ := mem_splitWS_wf ht
    rw [hsubeq, splitWS_single hne hwf] at hfl
    simp only [List.mem_singleton] at hfl
    subst hfl
    have htK : f ∈ K := hfK
    have h1 := hKsub f htK
    have hlook : (lookup? m f).isSome = true :=
      (lookup?_isSome_iff m f).mpr (hK ▸ htK)
    have hfe : f ≠ e := by
      intro he
      subst he
      exact absurd (hinv (f, b) hmem f ht htK) (lt_irrefl _)
    exact absurd (by simp [shouldSub, h1.1, h1.2, hfe, hlook]) hsub

theorem mem_updateMap_eq {m : Estate} {k v x : Str}
    (h : (k, x) ∈ updateMap m k v) : x = v := by
  induction m with
  | nil => simp [updateMap] at h
  | cons p ps ih =>
    simp only [updateMap, List.map_cons, List.mem_cons] at h
    rcases h with h | h
    · by_cases hp : p.1 = k
      · rw [if_pos hp] at h
        exact (Prod.mk.injEq _ _ _ _ ▸ h).2
      · rw [if_neg hp] at h
        exact absurd (congrArg Prod.fst h.symm) hp
    · exact ih h

theorem processBody_flag (names tasks : List Str) (m : Estate) (e b : Str) :
    (processBody names tasks m e b).2 =
      (splitWS b).any (fun t => shouldSub names tasks m e t) := by
  by_cases h : (splitWS b).any (fun t => shouldSub names tasks m e t) = true <;>
    simp [processBody, h]

theorem processBody_true (names tasks : List Str) (m : Estate) (e b : Str)
    (h : (splitWS b).any (fun t => shouldSub names tasks m e t) = true) :
    processBody names tasks m e b =
      (joinSp ((splitWS b).map (substToken names tasks m e)), true) := by
  simp [processBody, h]

theorem processBody_false (names tasks : List Str) (m : Estate) (e b : Str)
    (h : (splitWS b).any (fun t => shouldSub names tasks m e t) = false) :
    processBody names tasks m e b = (b, false) := by
  simp [processBody, h]

theorem mem_pair_eta {m : Estate} {p : Str × Str} (h : p ∈ m) : (p.1, p.2) ∈ m := by
  rwa [Prod.mk.eta]

theorem pair_mem_eta {m : Estate} {p : Str × Str} (h : (p.1, p.2) ∈ m) : p ∈ m := by
  rwa [Prod.mk.eta] at h

theorem mem_updateMap_key_eq {m : Estate} {k v : Str} {p : Str × Str}
    (hpk : p.1 = k) (h : p ∈ updateMap m k v) : p.2 = v :=
  mem_updateMap_eq (hpk ▸ mem_pair_eta h)

theorem mem_updateMap_key_ne {m : Estate} {k v : Str} {p : Str × Str}
    (hpk : p.1 ≠ k) (h : p ∈ updateMap m k v) : p ∈ m :=
  pair_mem_eta (mem_updateMap_ne hpk (mem_pair_eta h))

theorem pass_bounds (names tasks K : List Str) (r : Str → Nat) (c : Nat)
    (hKsub : ∀ t ∈ K, t ∈ names ∧ t ∉ tasks)
    (hpar1 : ('(' :: []) ∉ K) (hpar2 : (')' :: []) ∉ K)
    (hnd : K.Nodup) :
    ∀ (ks : List Str) (m : Estate), m.map Prod.fst = K →
      InvR K r m → StateBound K r (c + 1) m →
      (passKeys names tasks ks m).1.map Prod.fst = K ∧
      InvR K r (passKeys names tasks ks m).1 ∧
      StateBound K r (c + 1) (passKeys names tasks ks m).1 ∧
      (∀ p ∈ (passKeys names tasks ks m).1, p.1 ∈ ks → BodyBound K r c p.2) ∧
      (∀ p ∈ (passKeys names tasks ks m).1, p.1 ∉ ks → p ∈ m) := by
  intro ks
  induction ks with
  | nil =>
    intro m hK hinv hsb
    exact ⟨hK, hinv, hsb, fun p _ hp => by simp at hp, fun p hp _ => hp⟩
  | cons k ks ih =>
    intro m hK hinv hsb
    cases hl : lookup? m k with
    | none =>
      have hkK : k ∉ K := by
        intro hk
        have : (lookup? m k).isSome = true := (lookup?_isSome_iff m k).mpr (hK ▸ hk)
        rw [hl] at this
        exact Bool.noConfusion this
      obtain ⟨ha, hb, hc, hd, he⟩ := ih m hK hinv hsb
      simp only [passKeys, hl]
      refine ⟨ha, hb, hc, ?_, ?_⟩
      · intro p hp hpk
        rcases List.mem_cons.mp hpk with hpk1 | hpk2
        · exact absurd (hpk1 ▸ (ha ▸ List.mem_map.mpr ⟨p, hp, rfl⟩)) hkK
        · exact hd p hp hpk2
      · intro p hp hpk
        exact he p hp (fun hx => hpk (List.mem_cons_of_mem _ hx))
    | some b =>
      have hmem : (k, b) ∈ m := lookup?_mem hl
      have hndm : (m.map Prod.fst).Nodup := hK ▸ hnd
      cases hch : (splitWS b).any (fun t => shouldSub names tasks m k t) with
      | false =>
        have hpb := processBody_false names tasks m k b hch
        have hnoK : ∀ f ∈ splitWS b, f ∉ K := by
          intro f hf hfK
          have h1 := hKsub f hfK
          have hlook : (lookup? m f).isSome = true :=
            (lookup?_isSome_iff m f).mpr (hK ▸ hfK)
          have hfk : f ≠ k := by
            intro he2
            subst he2
            exact absurd (hinv (f, b) hmem f hf hfK) (lt_irrefl _)
          have hss : shouldSub names tasks m k f = true := by
            simp [shouldSub, h1.1, h1.2, hfk, hlook]
          rw [List.any_eq_false] at hch
          exact (hch f hf) hss
        obtain ⟨ha, hb2, hc, hd, he⟩ := ih m hK hinv hsb
        simp only [passKeys, hl, hpb, Bool.false_eq_true, if_false, Bool.false_or]
        refine ⟨ha, hb2, hc, ?_, ?_⟩
        · intro p hp hpk
          rcases List.mem_cons.mp hpk with hpk1 | hpk2
          · by_cases hpks : p.1 ∈ ks
            · exact hd p hp hpks
            · have hpm : p ∈ m := he p hp hpks
              have hlp : lookup? m p.1 = some p.2 := mem_lookup? hndm (mem_pair_eta hpm)
              rw [hpk1, hl] at hlp
              have hpb2 : p.2 = b := (Option.some_inj.mp hlp).symm
              intro f hf hfK
              rw [hpb2] at hf
              exact absurd hfK (hnoK f hf)
          · exact hd p hp hpk2
        · intro p hp hpk
          exact he p hp (fun hx => hpk (List.mem_cons_of_mem _ hx))
      | true =>
        have hpb := processBody_true names tasks m k b hch
        have hcore := processed_body_bounds names tasks K r hKsub hpar1 hpar2
          m hK hinv k b hmem
        set b' : Str := joinSp ((splitWS b).map (substToken names tasks m k)) with hb'
        have hb'inv : ∀ f ∈ splitWS b', f ∈ K → r f < r k := by
          intro f hf hfK
          obtain ⟨t, ht, htK, hrf⟩ := hcore f hf hfK
          exact lt_trans hrf (hinv (k, b) hmem t ht htK)
        have hb'bound : BodyBound K r c b' := by
          intro f hf hfK
          obtain ⟨t, ht, htK, hrf⟩ := hcore f hf hfK
          have := hsb (k, b) hmem t ht htK
          omega
        have hK1 : (updateMap m k b').map Prod.fst = K := by
          rw [updateMap_keys]; exact hK
        have hinv1 : InvR K r (updateMap m k b') := by
          intro p hp f hf hfK
          by_cases hpk : p.1 = k
          · have hpeq : p.2 = b' := mem_updateMap_key_eq hpk hp
            rw [hpk]
            exact hb'inv f (hpeq ▸ hf) hfK
          · exact hinv p (mem_updateMap_key_ne hpk hp) f hf hfK
        have hsb1 : StateBound K r (c + 1) (updateMap m k b') := by
          intro p hp
          by_cases hpk : p.1 = k
          · have hpeq : p.2 = b' := mem_updateMap_key_eq hpk hp
            rw [hpeq]
            exact BodyBound_mono (Nat.le_succ c) hb'bound
          · exact hsb p (mem_updateMap_key_ne hpk hp)
        obtain ⟨ha, hb2, hc, hd, he⟩ := ih (updateMap m k b') hK1 hinv1 hsb1
        simp only [passKeys, hl, hpb, if_true]
        refine ⟨ha, hb2, hc, ?_, ?_⟩
        · intro p hp hpk
          rcases List.mem_cons.mp hpk with hpk1 | hpk2
          · by_cases hpks : p.1 ∈ ks
            · exact hd p hp hpks
            · have hpm : p ∈ updateMap m k b' := he p hp hpks
              have hpeq : p.2 = b' := mem_updateMap_key_eq hpk1 hpm
              rw [hpeq]
              exact hb'bound
          · exact hd p hp hpk2
        · intro p hp hpk
          have hpk1 : p.1 ≠ k := fun hx => hpk (hx ▸ List.mem_cons_self _ _)
          have hpm : p ∈ updateMap m k b' :=
            he p hp (fun hx => hpk (List.mem_cons_of_mem _ hx))
          exact mem_updateMap_key_ne hpk1 hpm

theorem nosub_pass (names tasks : List Str) (m : Estate)
    (hns : ∀ p ∈ m, (splitWS p.2).any (fun t => shouldSub names tasks m p.1 t) = false) :
    ∀ ks, passKeys names tasks ks m = (m, false) := by
  intro ks
  induction ks with
  | nil => rfl
  | cons k ks ih =>
    cases hl : lookup? m k with
    | none => simp only [passKeys, hl, ih]
    | some b =>
      have hmem : (k, b) ∈ m := lookup?_mem hl
      have hpb := processBody_false names tasks m k b (hns (k, b) hmem)
      simp only [passKeys, hl, hpb, Bool.false_eq_true, if_false, ih, Bool.false_or]

theorem pass_false_nosub (names tasks : List Str) :
    ∀ (ks : List Str) (m m' : Estate), (m.map Prod.fst).Nodup →
      passKeys names tasks ks m = (m', false) →
      ∀ p ∈ m, p.1 ∈ ks →
        (splitWS p.2).any (fun t => shouldSub names tasks m p.1 t) = false := by
  intro ks
  induction ks with
  | nil => intro m m' _ _ p _ hp; simp at hp
  | cons k ks ih =>
    intro m m' hnd h p hpm hpk
    simp only [passKeys] at h
    cases hl : lookup? m k with
    | none =>
      rw [hl] at h
      rcases List.mem_cons.mp hpk with hpk1 | hpk2
      · have : (lookup? m p.1).isSome = true :=
          (lookup?_isSome_iff m p.1).mpr (List.mem_map.mpr ⟨p, hpm, rfl⟩)
        rw [hpk1, hl] at this
        exact Bool.noConfusion this
      · exact ih m m' hnd h p hpm hpk2
    | some b =>
      rw [hl] at h
      simp only at h
      have hflag : (processBody names tasks m k b).2 = false := by
        have h2 := congrArg Prod.snd h
        simp only at h2
        cases hcb : (processBody names tasks m k b).2
        · rfl
        · rw [hcb] at h2; simp at h2
      have hch : (splitWS b).any (fun t => shouldSub names tasks m k t) = false := by
        rw [← processBody_flag]; exact hflag
      rw [hflag] at h
      simp only [Bool.false_eq_true, if_false, Bool.false_or] at h
      rcases List.mem_cons.mp hpk with hpk1 | hpk2
      · have hlp : lookup? m p.1 = some p.2 := mem_lookup? hnd (mem_pair_eta hpm)
        rw [hpk1, hl] at hlp
        have hpb2 : p.2 = b := (Option.some_inj.mp hlp).symm
        rw [hpk1, hpb2]
        exact hch
      · exact ih m m' hnd (by rw [Prod.mk.eta] at h; exact h) p hpm hpk2

/-- Termination of the fixpoint loop under the rank hypothesis, with
the post-reduction primitivity property at the fixpoint: `c + 1` passes
suffice when every expression-key token ranks below `c`. -/
theorem reduceLoop_terminates (names tasks K : List Str) (r : Str → Nat)
    (hKsub : ∀ t ∈ K, t ∈ names ∧ t ∉ tasks)
    (hback : ∀ t, t ∈ names → t ∉ tasks → t ∈ K)
    (hpar1 : ('(' :: []) ∉ K) (hpar2 : (')' :: []) ∉ K)
    (hnd : K.Nodup) :
    ∀ (c : Nat) (m : Estate), m.map Prod.fst = K →
      InvR K r m → StateBound K r c m →
      ∃ st, reduceLoop names tasks (c + 1) m = some st ∧
        st.map Prod.fst = K ∧
        ∀ p ∈ st, ∀ t ∈ splitWS p.2, t ∈ names → t ∈ tasks := by
  intro c
  induction c with
  | zero =>
    intro m hK hinv hsb
    have hns : ∀ p ∈ m,
        (splitWS p.2).any (fun t => shouldSub names tasks m p.1 t) = false := by
      intro p hp
      rw [List.any_eq_false]
      intro t ht hss
      have hlook : (lookup? m t).isSome = true := by
        unfold shouldSub at hss
        simp only [Bool.and_eq_true] at hss
        exact hss.2
      have htK : t ∈ K := hK ▸ (lookup?_isSome_iff m t).mp hlook
      exact absurd (hsb p hp t ht htK) (Nat.not_lt_zero _)
    have hpass := nosub_pass names tasks m hns (m.map Prod.fst)
    refine ⟨m, ?_, hK, ?_⟩
    · simp only [reduceLoop, onePass, hpass]
      rfl
    · intro p hp t ht htn
      by_contra htt
      have htK : t ∈ K := hback t htn htt
      exact absurd (hsb p hp t ht htK) (Nat.not_lt_zero _)
  | succ c ih =>
    intro m hK hinv hsb
    cases hch : (onePass names tasks m).2 with
    | false =>
      have heq : onePass names tasks m = ((onePass names tasks m).1, false) :=
        Prod.ext_iff.mpr ⟨rfl, hch⟩
      have hm1 : (onePass names tasks m).1 = m :=
        passKeys_false_eq names tasks (m.map Prod.fst) m _ heq
      have hns := pass_false_nosub names tasks (m.map Prod.fst) m m (hK ▸ hnd)
        (by rw [hm1] at heq; exact heq)
      refine ⟨m, ?_, hK, ?_⟩
      · simp only [reduceLoop, hch, Bool.false_eq_true, if_false, hm1]
      · intro p hp t ht htn
        by_contra htt
        have htK : t ∈ K := hback t htn htt
        have h1 := hKsub t htK
        have hlook : (lookup? m t).isSome = true :=
          (lookup?_isSome_iff m t).mpr (hK ▸ htK)
        have hte : t ≠ p.1 := by
          intro he2
          exact absurd (hinv p hp t ht htK) (he2 ▸ lt_irrefl _)
        have hss : shouldSub names tasks m p.1 t = true := by
          simp [shouldSub, h1.1, h1.2, hte, hlook]
        have hpk : p.1 ∈ m.map Prod.fst := List.mem_map.mpr ⟨p, hp, rfl⟩
        have := hns p hp hpk
        rw [List.any_eq_false] at this
        exact (this t ht) hss
    | true =>
      obtain ⟨ha, hb2, hc2, hd, he⟩ := pass_bounds names tasks K r c hKsub hpar1 hpar2
        hnd (m.map Prod.fst) m hK hinv hsb
      have hsbc : StateBound K r c (onePass names tasks m).1 := by
        intro p hp
        unfold onePass at hp
        have h1 : p.1 ∈ (passKeys names tasks (m.map Prod.fst) m).1.map Prod.fst :=
          List.mem_map.mpr ⟨p, hp, rfl⟩
        rw [passKeys_keys] at h1
        exact hd p hp h1
      obtain ⟨st, hst, hstK, hprim⟩ := ih (onePass names tasks m).1 ha hb2 hsbc
      refine ⟨st, ?_, hstK, hprim⟩
      simp only [reduceLoop, hch, if_true]
      exact hst

/-- C4 amended: termination holds when the reference graph **including
self-edges** is acyclic (witnessed by a rank function that strictly
decreases along every expression-name token, the loop's own-name
tokens included — `c4_acyclic_yet_diverges` shows the claim's
self-edge-free graph is not enough).  Under the structural facts
`_parse_file` guarantees (expression keys are defined non-task names
and vice versa, names are unique, `(` and `)` are not expression
names), the loop halts on the first pass that makes no substitution —
within `c + 1` passes for any rank bound `c` — and at the fixpoint
every whitespace token of every body that is a defined name is a task
name. -/
theorem c4_amended_ranked_acyclic_terminates
    (names tasks : List Str) (m : Estate) (r : Str → Nat) (c : Nat)
    (hK1 : ∀ t ∈ m.map Prod.fst, t ∈ names)
    (hK2 : ∀ t ∈ m.map Prod.fst, t ∉ tasks)
    (hK3 : ∀ t, t ∈ names → t ∉ tasks → t ∈ m.map Prod.fst)
    (hpar1 : ('(' :: []) ∉ m.map Prod.fst)
    (hpar2 : (')' :: []) ∉ m.map Prod.fst)
    (hnd : (m.map Prod.fst).Nodup)
    (hrank : ∀ p ∈ m, ∀ f ∈ splitWS p.2, f ∈ m.map Prod.fst → r f < r p.1)
    (hbound : ∀ p ∈ m, ∀ f ∈ splitWS p.2, f ∈ m.map Prod.fst → r f < c) :
    ∃ st, reduceLoop names tasks (c + 1) m = some st ∧
      st.map Prod.fst = m.map Prod.fst ∧
      ∀ p ∈ st, ∀ t ∈ splitWS p.2, t ∈ names → t ∈ tasks :=
  reduceLoop_terminates names tasks (m.map Prod.fst) r
    (fun t ht => ⟨hK1 t ht, hK2 t ht⟩) hK3 hpar1 hpar2 hnd c m rfl
    (fun p hp f hf hfK => hrank p hp f hf hfK)
    (fun p hp f hf hfK => hbound p hp f hf hfK)

/-- Concrete instantiation of `c4_amended_ranked_acyclic_terminates`:
`A` references `B` and the task `T`, `B` is already primitive; rank
`A ↦ 1`, `B ↦ 0`, bound `2`. -/
theorem c4_amended_ranked_acyclic_terminates_witness :
    ((∀ t ∈ ([("A".toList, "B AND T".toList), ("B".toList, "T".toList)] : Estate).map
        Prod.fst, t ∈ ["T".toList, "A".toList, "B".toList]) ∧
     (∀ t ∈ ([("A".toList, "B AND T".toList), ("B".toList, "T".toList)] : Estate).map
        Prod.fst, t ∉ ["T".toList]) ∧
     (∀ t, t ∈ ["T".toList, "A".toList, "B".toList] → t ∉ ["T".toList] →
        t ∈ ([("A".toList, "B AND T".toList), ("B".toList, "T".toList)] : Estate).map
          Prod.fst)) ∧
    (∃ st,
      reduceLoop ["T".toList, "A".toList, "B".toList] ["T".toList] 3
        [("A".toList, "B AND T".toList), ("B".toList, "T".toList)] = some st ∧
      st.map Prod.fst =
        ([("A".toList, "B AND T".toList), ("B".toList, "T".toList)] : Estate).map
          Prod.fst ∧
      ∀ p ∈ st, ∀ t ∈ splitWS p.2,
        t ∈ ["T".toList, "A".toList, "B".toList] → t ∈ ["T".toList]) :=
  ⟨⟨by decide, by decide, by decide⟩,
    c4_amended_ranked_acyclic_terminates
      ["T".toList, "A".toList, "B".toList] ["T".toList]
      [("A".toList, "B AND T".toList), ("B".toList, "T".toList)]
      (fun n => if n = "A".toList then 1 else 0) 2
      (by decide) (by decide) (by decide) (by decide) (by decide) (by decide)
      (by decide) (by decide)⟩

/-- Why the amended C4 statement must except expressions named `(` or
`)`: the front end accepts a file declaring an expression literally
named `(`. -/
def c4parenInput : Str :=
  "context c; define A: where (; define (: where T; define T: tt;".toList

def c4parenPd : ParsedData :=
  ⟨"c".toList, ["T".toList, "A".toList, "(".toList], ["T".toList],
   [("A".toList, "(".toList), ("(".toList, "T".toList)]⟩

def c4parenRank (n : Str) : Nat := if n = "A".toList then 1 else 0

/-- The parenthesis-name proviso of the amended C4 statement is forced,
not incidental: `_parse_file`'s front end accepts an expression
literally named `(` (the feature pattern `[^:]+` admits it), the
resulting file satisfies the self-edge-inclusive rank condition — its
only reference edge is `A → (` — and yet the fixpoint loop diverges,
because substituting the token `(` inserts `( T )`, whose wrapping
parenthesis is again the expression key `(`. -/
theorem c4_paren_name_forces_hypothesis :
    parse_front c4parenInput = .ok c4parenPd ∧
    (∀ p ∈ c4parenPd.expressions, ∀ f ∈ splitWS p.2,
        f ∈ c4parenPd.expressions.map Prod.fst → c4parenRank f < c4parenRank p.1) ∧
    ¬ ∃ fuel st, reduceLoop c4parenPd.names c4parenPd.tasks fuel
        c4parenPd.expressions = some st := by
  refine ⟨by decide, by decide, ?_⟩
  rintro ⟨fuel, st, h⟩
  have he : c4parenPd.expressions =
      [("A".toList, "(".toList), ("(".toList, "T".toList)] := rfl
  rw [he, loop_diverges c4parenPd.names c4parenPd.tasks "A".toList "(".toList
    "T".toList (by decide) (by decide) (by decide) (by decide) (by decide)
    fuel "(".toList (by decide)] at h
  exact Option.noConfusion h

/-! ## Self-reference persistence and scan-error analysis -/

theorem mem_updateMap_self {m : Estate} {k v : Str}
    (h : k ∈ m.map Prod.fst) : (k, v) ∈ updateMap m k v := by
  induction m with
  | nil => simp at h
  | cons p ps ih =>
    rcases List.mem_cons.mp h with h1 | h1
    · simp [updateMap, h1.symm]
    · simp only [updateMap, List.map_cons, List.mem_cons]
      by_cases hp : p.1 = k
      · simp [hp]
      · exact Or.inr (by simpa [updateMap] using ih h1)

theorem mem_updateMap_of_ne {m : Estate} {k v : Str} {p : Str × Str}
    (hpk : p.1 ≠ k) (h : p ∈ m) : p ∈ updateMap m k v := by
  induction m with
  | nil => simp at h
  | cons q qs ih =>
    rcases List.mem_cons.mp h with rfl | h1
    · simp only [updateMap, List.map_cons, List.mem_cons]
      rw [if_neg hpk]
      exact Or.inl rfl
    · simp only [updateMap, List.map_cons, List.mem_cons]
      exact Or.inr (by simpa [updateMap] using ih h1)

/-- A token equal to the expression's own name is never substituted, so
it remains a token of the rewritten body. -/
theorem self_token_in_processed (names tasks : List Str) (m : Estate) (e b : Str)
    (hself : e ∈ splitWS b) :
    e ∈ splitWS (joinSp ((splitWS b).map (substToken names tasks m e))) := by
  rw [splitWS_joinSp, List.map_map]
  apply List.mem_flatten.mpr
  refine ⟨splitWS (substToken names tasks m e e), ?_, ?_⟩
  · exact List.mem_map.mpr ⟨e, hself, rfl⟩
  · have hss : shouldSub names tasks m e e = false := by
      simp [shouldSub]
    rw [show substToken names tasks m e e = e by simp [substToken, hss]]
    obtain ⟨hne, hwf⟩ := mem_splitWS_wf hself
    rw [splitWS_single hne hwf]
    exact List.mem_singleton.mpr rfl

theorem pass_self_persist (names tasks : List Str) :
    ∀ (ks : List Str) (m : Estate) (e b : Str),
      (m.map Prod.fst).Nodup → (e, b) ∈ m → e ∈ splitWS b →
      ∃ b', (e, b') ∈ (passKeys names tasks ks m).1 ∧ e ∈ splitWS b' := by
  intro ks
  induction ks with
  | nil => intro m e b _ hm hs; exact ⟨b, hm, hs⟩
  | cons k ks ih =>
    intro m e b hnd hm hs
    cases hl : lookup? m k with
    | none =>
      simp only [passKeys, hl]
      exact ih m e b hnd hm hs
    | some bk =>
      cases hch : (splitWS bk).any (fun t => shouldSub names tasks m k t) with
      | false =>
        have hpb := processBody_false names tasks m k bk hch
        simp only [passKeys, hl, hpb, Bool.false_eq_true, if_false]
        exact ih m e b hnd hm hs
      | true =>
        have hpb := processBody_true names tasks m k bk hch
        simp only [passKeys, hl, hpb, if_true]
        have hnd1 : ((updateMap m k
            (joinSp ((splitWS bk).map (substToken names tasks m k)))).map
              Prod.fst).Nodup := by
          rw [updateMap_keys]; exact hnd
        by_cases hek : e = k
        · subst hek
          have hbk : bk = b := by
            have h1 := mem_lookup? hnd hm
            rw [hl] at h1
            exact Option.some_inj.mp h1
          subst hbk
          have hmem1 : (e, joinSp ((splitWS bk).map (substToken names tasks m e))) ∈
              updateMap m e (joinSp ((splitWS bk).map (substToken names tasks m e))) :=
            mem_updateMap_self (List.mem_map.mpr ⟨(e, bk), hm, rfl⟩)
          exact ih _ e _ hnd1 hmem1 (self_token_in_processed names tasks m e bk hs)
        · have hmem1 : (e, b) ∈ updateMap m k
              (joinSp ((splitWS bk).map (substToken names tasks m k))) :=
            mem_updateMap_of_ne (by simpa using hek) hm
          exact ih _ e b hnd1 hmem1 hs

theorem loop_self_persist (names tasks : List Str) :
    ∀ (fuel : Nat) (m st : Estate) (e b : Str),
      (m.map Prod.fst).Nodup → reduceLoop names tasks fuel m = some st →
      (e, b) ∈ m → e ∈ splitWS b →
      ∃ b', (e, b') ∈ st ∧ e ∈ splitWS b' := by
  intro fuel
  induction fuel with
  | zero => intro m st e b _ h; simp [reduceLoop] at h
  | succ n ih =>
    intro m st e b hnd h hm hs
    simp only [reduceLoop] at h
    cases hch : (onePass names tasks m).2 with
    | true =>
      rw [hch] at h
      simp only [if_true] at h
      obtain ⟨b', hb'm, hb's⟩ := pass_self_persist names tasks (m.map Prod.fst)
        m e b hnd hm hs
      have hnd1 : ((onePass names tasks m).1.map Prod.fst).Nodup := by
        unfold onePass
        rw [passKeys_keys]
        exact hnd
      exact ih (onePass names tasks m).1 st e b' hnd1 h hb'm hb's
    | false =>
      rw [hch] at h
      simp only [Bool.false_eq_true, if_false, Option.some.injEq] at h
      have heq : onePass names tasks m = ((onePass names tasks m).1, false) :=
        Prod.ext_iff.mpr ⟨rfl, hch⟩
      have hm1 : (onePass names tasks m).1 = m :=
        passKeys_false_eq names tasks (m.map Prod.fst) m _ heq
      rw [← h, hm1]
      exact ⟨b, hm, hs⟩

theorem splitDotAux_length : ∀ (s acc : Str),
    (splitDotAux s acc).length = s.count '.' + 1 := by
  intro s
  induction s with
  | nil => intro acc; simp [splitDotAux]
  | cons c cs ih =>
    intro acc
    by_cases hc : c = '.'
    · simp [splitDotAux, hc, ih, List.count_cons]
    · simp [splitDotAux, hc, ih, List.count_cons, Ne.symm hc]

theorem splitDot_length (t : Str) : (splitDot t).length = t.count '.' + 1 :=
  splitDotAux_length t []

theorem scanToken_self_assert (names tasks : List Str) (t : Str)
    (hdot : '.' ∉ t) (hn : t ∈ names) (ht : t ∉ tasks) :
    scanToken names tasks t = .error .assertFail := by
  simp [scanToken, hdot, hn, ht]

theorem scanToken_verr (names tasks : List Str) (t : Str)
    (h : 3 ≤ (splitDot t).length) :
    scanToken names tasks t = .error .valueError := by
  have hdot : '.' ∈ t := by
    rw [splitDot_length] at h
    exact List.one_le_count_iff.mp (by omega)
  unfold scanToken
  rw [if_pos hdot]
  cases hl : splitDot t with
  | nil => rfl
  | cons f rest =>
    cases rest with
    | nil => rfl
    | cons g rest2 =>
      cases rest2 with
      | nil => rw [hl] at h; simp at h
      | cons => rfl

theorem scanToken_no_verr (names tasks : List Str) (t : Str)
    (h : (splitDot t).length ≤ 2) :
    scanToken names tasks t ≠ .error .valueError := by
  unfold scanToken
  by_cases hdot : '.' ∈ t
  · rw [if_pos hdot]
    have hc : 1 ≤ t.count '.' := List.one_le_count_iff.mpr hdot
    have hl2 : (splitDot t).length = 2 := by
      rw [splitDot_length] at h ⊢
      omega
    cases hl : splitDot t with
    | nil => rw [hl] at hl2; simp at hl2
    | cons f rest =>
      cases rest with
      | nil => rw [hl] at hl2; simp at hl2
      | cons g rest2 =>
        cases rest2 with
        | nil =>
          by_cases hn : t ∈ names
          · by_cases htk : f ∈ tasks <;> simp [hn, htk]
          · simp [hn]
        | cons => rw [hl] at hl2; simp at hl2
  · rw [if_neg hdot]
    by_cases hn : t ∈ names
    · by_cases htk : t ∈ tasks <;> simp [hn, htk]
    · simp [hn]

theorem scanTokens_excl (names tasks : List Str) (e0 : ReduceErr) :
    ∀ ts : List Str, (∀ t ∈ ts, scanToken names tasks t ≠ .error e0) →
      scanTokens names tasks ts ≠ .error e0 := by
  intro ts
  induction ts with
  | nil => intro _ h; simp [scanTokens] at h
  | cons t ts ih =>
    intro hall h
    simp only [scanTokens] at h
    cases hs : scanToken names tasks t with
    | error e =>
      rw [hs] at h
      simp only [Except.error.injEq] at h
      exact hall t (List.mem_cons_self _ _) (by rw [hs, h])
    | ok o =>
      rw [hs] at h
      cases o with
      | none => exact ih (fun x hx => hall x (List.mem_cons_of_mem _ hx)) h
      | some f =>
        simp only at h
        cases hrec : scanTokens names tasks ts with
        | error e =>
          rw [hrec] at h
          simp only [Except.error.injEq] at h
          exact ih (fun x hx => hall x (List.mem_cons_of_mem _ hx)) (by rw [hrec, h])
        | ok s => rw [hrec] at h; exact Except.noConfusion h

theorem scanTokens_not_ok (names tasks : List Str) :
    ∀ ts : List Str, (∃ t ∈ ts, ∃ e, scanToken names tasks t = .error e) →
      ∀ s, scanTokens names tasks ts ≠ .ok s := by
  intro ts
  induction ts with
  | nil => rintro ⟨t, ht, _⟩; simp at ht
  | cons t ts ih =>
    rintro ⟨x, hx, e, he⟩ s h
    simp only [scanTokens] at h
    rcases List.mem_cons.mp hx with rfl | hx2
    · rw [he] at h
      exact Except.noConfusion h
    · cases hs : scanToken names tasks t with
      | error e2 => rw [hs] at h; exact Except.noConfusion h
      | ok o =>
        rw [hs] at h
        cases o with
        | none => exact ih ⟨x, hx2, e, he⟩ s h
        | some f =>
          simp only at h
          cases hrec : scanTokens names tasks ts with
          | error e2 => rw [hrec] at h; exact Except.noConfusion h
          | ok s2 => exact ih ⟨x, hx2, e, he⟩ s2 hrec

theorem collectPrimitives_excl (names tasks : List Str) (e0 : ReduceErr) :
    ∀ st : Estate,
      (∀ p ∈ st, ∀ t ∈ splitWS p.2, scanToken names tasks t ≠ .error e0) →
      collectPrimitives names tasks st ≠ .error e0 := by
  intro st
  induction st with
  | nil => intro _ h; simp [collectPrimitives] at h
  | cons p ps ih =>
    intro hall h
    obtain ⟨n, b⟩ := p
    simp only [collectPrimitives] at h
    cases hs : scanTokens names tasks (splitWS b) with
    | error e =>
      rw [hs] at h
      simp only [Except.error.injEq] at h
      exact scanTokens_excl names tasks e0 (splitWS b)
        (fun t ht => hall (n, b) (List.mem_cons_self _ _) t ht) (by rw [hs, h])
    | ok s =>
      rw [hs] at h
      cases hrec : collectPrimitives names tasks ps with
      | error e =>
        rw [hrec] at h
        simp only [Except.error.injEq] at h
        exact ih (fun q hq => hall q (List.mem_cons_of_mem _ hq)) (by rw [hrec, h])
      | ok s2 => rw [hrec] at h; exact Except.noConfusion h

theorem collectPrimitives_not_ok (names tasks : List Str) :
    ∀ st : Estate,
      (∃ p ∈ st, ∃ t ∈ splitWS p.2, ∃ e, scanToken names tasks t = .error e) →
      ∀ s, collectPrimitives names tasks st ≠ .ok s := by
  intro st
  induction st with
  | nil => rintro ⟨p, hp, _⟩; simp at hp
  | cons q ps ih =>
    rintro ⟨p, hp, t, ht, e, he⟩ s h
    obtain ⟨n, b⟩ := q
    simp only [collectPrimitives] at h
    rcases List.mem_cons.mp hp with rfl | hp2
    · cases hs : scanTokens names tasks (splitWS b) with
      | error e2 => rw [hs] at h; exact Except.noConfusion h
      | ok s2 =>
        exact scanTokens_not_ok names tasks (splitWS b) ⟨t, ht, e, he⟩ s2 hs
    · cases hs : scanTokens names tasks (splitWS b) with
      | error e2 => rw [hs] at h; exact Except.noConfusion h
      | ok s2 =>
        rw [hs] at h
        cases hrec : collectPrimitives names tasks ps with
        | error e2 => rw [hrec] at h; exact Except.noConfusion h
        | ok s3 => exact ih ⟨p, hp2, t, ht, e, he⟩ s3 hrec

/-- C9 amended: if the reduction loop does reach its fixpoint (the
claim's premise that acyclicity of the *other* references ensures this
is refuted by `c9_self_reference_diverges`, so termination is assumed
directly), an expression whose body contains its own (dot-free) name as
a token keeps that token unexpanded in its final body, and — provided
no final-body token carries two or more dots, which would raise
`ValueError` first — the primitive scan fails its
`assert nlpql_feature in task_names` assertion, so `_reduce_expressions`
raises and no `FileData` is returned. -/
theorem c9_self_reference_assert_amended
    (names tasks : List Str) (m st : Estate) (fuel : Nat) (e₀ b₀ : Str)
    (hnd : (m.map Prod.fst).Nodup)
    (hfix : reduceLoop names tasks fuel m = some st)
    (hmem : (e₀, b₀) ∈ m) (hself : e₀ ∈ splitWS b₀)
    (hdot : '.' ∉ e₀) (hname : e₀ ∈ names) (htask : e₀ ∉ tasks)
    (h2dot : ∀ p ∈ st, ∀ t ∈ splitWS p.2, (splitDot t).length ≤ 2) :
    (∃ b', (e₀, b') ∈ st ∧ e₀ ∈ splitWS b') ∧
    collectPrimitives names tasks st = .error .assertFail ∧
    ∀ ctx, reduce_expressions fuel ⟨ctx, names, tasks, m⟩ =
      some (.error .assertFail) := by
  obtain ⟨b', hb'm, hb's⟩ :=
    loop_self_persist names tasks fuel m st e₀ b₀ hnd hfix hmem hself
  have hone : scanToken names tasks e₀ = .error .assertFail :=
    scanToken_self_assert names tasks e₀ hdot hname htask
  have hnotok : ∀ s, collectPrimitives names tasks st ≠ .ok s :=
    collectPrimitives_not_ok names tasks st
      ⟨(e₀, b'), hb'm, e₀, hb's, .assertFail, hone⟩
  have hnoverr : collectPrimitives names tasks st ≠ .error .valueError :=
    collectPrimitives_excl names tasks .valueError st
      (fun p hp t ht => scanToken_no_verr names tasks t (h2dot p hp t ht))
  have hcol : collectPrimitives names tasks st = .error .assertFail := by
    cases hres : collectPrimitives names tasks st with
    | ok s => exact absurd hres (hnotok s)
    | error e =>
      cases e with
      | assertFail => rfl
      | valueError => exact absurd hres hnoverr
  refine ⟨⟨b', hb'm, hb's⟩, hcol, ?_⟩
  intro ctx
  unfold reduce_expressions
  simp only [hfix, hcol]

/-- Concrete instantiation of `c9_self_reference_assert_amended`:
`A`'s body is `A AND T`, already at the fixpoint. -/
theorem c9_self_reference_assert_amended_witness :
    (reduceLoop ["T".toList, "A".toList] ["T".toList] 1
        [("A".toList, "A AND T".toList)] = some [("A".toList, "A AND T".toList)] ∧
      ("A".toList, "A AND T".toList) ∈ ([("A".toList, "A AND T".toList)] : Estate) ∧
      "A".toList ∈ splitWS "A AND T".toList) ∧
    ((∃ b', ("A".toList, b') ∈ ([("A".toList, "A AND T".toList)] : Estate) ∧
        "A".toList ∈ splitWS b') ∧
      collectPrimitives ["T".toList, "A".toList] ["T".toList]
        [("A".toList, "A AND T".toList)] = .error .assertFail ∧
      ∀ ctx, reduce_expressions 1
        ⟨ctx, ["T".toList, "A".toList], ["T".toList],
         [("A".toList, "A AND T".toList)]⟩ = some (.error .assertFail)) :=
  ⟨⟨by decide, by decide, by decide⟩,
    c9_self_reference_assert_amended ["T".toList, "A".toList] ["T".toList]
      [("A".toList, "A AND T".toList)] [("A".toList, "A AND T".toList)] 1
      "A".toList "A AND T".toList
      (by decide) (by decide) (by decide) (by decide) (by decide) (by decide)
      (by decide) (by decide)⟩

/-- Why the amended C9 statement requires the self-referential name to
be dot-free. -/
def c9dotInput : Str :=
  "context c; define T.x: where T.x AND T; define T: tt;".toList

/-- The dot-free proviso of the amended C9 statement is forced, not
incidental: the front end accepts an expression named `T.x` (the
feature pattern `[^:]+` admits the dot) whose body contains its own
name as a token.  The self-token survives to the fixpoint, but the scan
splits it on `.` and asserts on the **base** name `T`, which *is* a
task — the assertion passes, `T` is even added to `primitives`, and a
`FileData` is returned, so the assertion-failure conclusion is false
for dotted self-names. -/
theorem c9_dotted_self_name_forces_hypothesis :
    "T.x".toList ∈ splitWS ("T.x AND T".toList) ∧
    parse_file 3 c9dotInput = .ok
      { context := "c".toList, names := ["T".toList, "T.x".toList],
        tasks := ["T".toList],
        expressions := [("T.x".toList, "T.x AND T".toList)],
        reduced_expressions := [("T.x".toList, "T.x AND T".toList)],
        primitives := {"T".toList} } := by
  exact ⟨by decide, by decide⟩

/-- C10 counterexample: `A`'s final body is `A 1.2.3`, which contains a
two-dot token, but the scan reaches the self-reference token `A` first
and raises the assertion failure — not the claimed `ValueError`. -/
theorem c10_assert_preempts_counterexample :
    parse_front ("context c3; define A: where A 1.2.3; define T: tt;".toList) =
      .ok ⟨"c3".toList, ["T".toList, "A".toList], ["T".toList],
           [("A".toList, "A 1.2.3".toList)]⟩ ∧
    reduceLoop ["T".toList, "A".toList] ["T".toList] 9
        [("A".toList, "A 1.2.3".toList)] =
      some [("A".toList, "A 1.2.3".toList)] ∧
    3 ≤ (splitDot "1.2.3".toList).length ∧
    parse_file 9 ("context c3; define A: where A 1.2.3; define T: tt;".toList) =
      .reduceErr .assertFail ∧
    parse_file 9 ("context c3; define A: where A 1.2.3; define T: tt;".toList) ≠
      .reduceErr .valueError := by
  exact ⟨by decide, by decide, by decide, by decide, by decide⟩

/-- C10 amended: when the loop reaches its fixpoint and no token
scanned in the final bodies fails the task-name assertion (e.g. no
unexpanded self-reference is scanned first), a final-body token with
two or more dots — declared or not — makes the primitive scan raise
`ValueError` from unpacking `token.split('.')`, and no `FileData` is
returned. -/
theorem c10_multi_dot_value_error
    (names tasks : List Str) (m st : Estate) (fuel : Nat)
    (hfix : reduceLoop names tasks fuel m = some st)
    (hnoassert : ∀ p ∈ st, ∀ t ∈ splitWS p.2,
      scanToken names tasks t ≠ .error .assertFail)
    (hbad : ∃ p ∈ st, ∃ t ∈ splitWS p.2, 3 ≤ (splitDot t).length) :
    collectPrimitives names tasks st = .error .valueError ∧
    ∀ ctx, reduce_expressions fuel ⟨ctx, names, tasks, m⟩ =
      some (.error .valueError) := by
  obtain ⟨p, hp, t, ht, hlen⟩ := hbad
  have hone : scanToken names tasks t = .error .valueError :=
    scanToken_verr names tasks t hlen
  have hnotok : ∀ s, collectPrimitives names tasks st ≠ .ok s :=
    collectPrimitives_not_ok names tasks st ⟨p, hp, t, ht, .valueError, hone⟩
  have hnoassert2 : collectPrimitives names tasks st ≠ .error .assertFail :=
    collectPrimitives_excl names tasks .assertFail st hnoassert
  have hcol : collectPrimitives names tasks st = .error .valueError := by
    cases hres : collectPrimitives names tasks st with
    | ok s => exact absurd hres (hnotok s)
    | error e =>
      cases e with
      | assertFail => exact absurd hres hnoassert2
      | valueError => rfl
  refine ⟨hcol, ?_⟩
  intro ctx
  unfold reduce_expressions
  simp only [hfix, hcol]

/-- Concrete instantiation of `c10_multi_dot_value_error`: the token
`1.2.3` is not a declared name, yet the scan still raises. -/
theorem c10_multi_dot_value_error_witness :
    (reduceLoop ["T".toList, "E".toList] ["T".toList] 1
        [("E".toList, "T 1.2.3".toList)] = some [("E".toList, "T 1.2.3".toList)] ∧
      "1.2.3".toList ∉ ["T".toList, "E".toList] ∧
      (∃ p ∈ ([("E".toList, "T 1.2.3".toList)] : Estate),
        ∃ t ∈ splitWS p.2, 3 ≤ (splitDot t).length)) ∧
    (collectPrimitives ["T".toList, "E".toList] ["T".toList]
        [("E".toList, "T 1.2.3".toList)] = .error .valueError ∧
      ∀ ctx, reduce_expressions 1
        ⟨ctx, ["T".toList, "E".toList], ["T".toList],
         [("E".toList, "T 1.2.3".toList)]⟩ = some (.error .valueError)) :=
  ⟨⟨by decide, by decide, by decide⟩,
    c10_multi_dot_value_error ["T".toList, "E".toList] ["T".toList]
      [("E".toList, "T 1.2.3".toList)] [("E".toList, "T 1.2.3".toList)] 1
      (by decide) (by decide) (by decide)⟩
